import Mathlib

/-!
Formal model of the core data-processing components of the crim-react
repository, together with theorems settling the specification claims.

The Python sources embedded here are:
  * `src/core/crim_cache_manager.py`   (staged cache: save / load / has)
  * `src/core/compare/melodic_ngram_values.py`  (inverted-index builder)
  * `src/core/compare/piece_pair_values.py`     (collapsed pairwise miner)
  * `src/core/compare/piece_pair_value_sources.py` (configuration-aware miner)
  * `src/core/compare/note_pairs.py`   (note-pair generator)
  * `src/core/utils/note_id_updater.py` (fuzzy-join reconciler)

Modelling conventions:
  * Onsets are floating-point numbers in the source; here they are exact
    integers counting a fixed sub-beat quantum (e.g. 10^-4 of a beat), which
    preserves the ordering / absolute-difference structure that the claims
    are about.  The spec example onsets 0.0, 1.0, 1.0004 with tolerance
    0.001 become 0, 10000, 10004 with tolerance 10.
  * Python `sorted(...)` on a list of integers returns the unique sorted
    rearrangement of the multiset, which is `List.insertionSort (· ≤ ·)`.
  * Python `sorted(list(set(xs)))` returns the unique sorted duplicate-free
    enumeration of the set of `xs`, which is `insertionSort` of `xs.dedup`.
  * A Python `defaultdict(list)` populated by appending, iterated in
    insertion order, is the association list `accGroups` below.
-/

set_option linter.unusedSectionVars false

namespace Crim

/-! ### Association-list grouping (model of defaultdict accumulation)

`insertGroup gs k v` appends `v` to the group of key `k`, creating the group
at the end if the key is new — exactly the effect of `d[k].append(v)` on a
`defaultdict(list)` (Python dicts preserve insertion order).  `accGroups l`
folds a whole list of key/value pairs this way.
-/

variable {κ ν : Type} [DecidableEq κ]

def insertGroup (gs : List (κ × List ν)) (k : κ) (v : ν) : List (κ × List ν) :=
  match gs with
  | [] => [(k, [v])]
  | g :: rest => if g.1 = k then (g.1, g.2 ++ [v]) :: rest else g :: insertGroup rest k v

def accGroupsFrom (gs : List (κ × List ν)) (l : List (κ × ν)) : List (κ × List ν) :=
  l.foldl (fun gs p => insertGroup gs p.1 p.2) gs

def accGroups (l : List (κ × ν)) : List (κ × List ν) :=
  accGroupsFrom [] l

def lookupGroup (gs : List (κ × List ν)) (k : κ) : List ν :=
  ((gs.find? (fun g => decide (g.1 = k))).map Prod.snd).getD []

def keysOf (gs : List (κ × List ν)) : List κ :=
  gs.map Prod.fst

/-! ### Sorted-list helpers (model of Python `sorted`)

`sorted(xs)` on a list of integers yields the unique sorted rearrangement of
the multiset `xs`; `sorted(list(set(xs)))` yields the unique sorted
duplicate-free enumeration of the set of `xs`.
-/

def natSorted (l : List Nat) : List Nat :=
  l.insertionSort (· ≤ ·)

def natSetSorted (l : List Nat) : List Nat :=
  natSorted l.dedup

def strSorted (l : List String) : List String :=
  l.insertionSort (· ≤ ·)

def strSetSorted (l : List String) : List String :=
  strSorted l.dedup


/-! ### Staged cache — `src/core/crim_cache_manager.py`

The cache lives on a filesystem.  A data file is addressed by its directory
(a list of path components), a stem and an extension, mirroring how the
source builds paths with `os.path.join(...)` and splits names with
`os.path.splitext` (which separates the final extension from the stem).
File contents are abstracted as natural numbers (serialized bytes).

`FS.dirs` records which directories exist (`os.makedirs` / `os.path.exists`);
only `save_stage_cache` ever creates an entry directory.
-/

structure FKey where
  dir : List String
  stem : String
  ext : String
deriving DecidableEq, Repr

structure FS where
  files : List (FKey × Nat)
  dirs : List (List String)
deriving DecidableEq, Repr

def fsRead (fs : FS) (k : FKey) : Option Nat :=
  (fs.files.find? (fun e => decide (e.1 = k))).map Prod.snd

def fsWrite (fs : FS) (k : FKey) (c : Nat) : FS :=
  { fs with files := (k, c) :: fs.files.eraseP (fun e => decide (e.1 = k)) }

def fsMkdir (fs : FS) (d : List String) : FS :=
  { fs with dirs := d :: fs.dirs }

inductive PutStep where
  | mkdir (d : List String)
  | fileWrite (k : FKey) (c : Nat)
deriving DecidableEq, Repr

def applyStep (fs : FS) : PutStep → FS
  | PutStep.mkdir d => fsMkdir fs d
  | PutStep.fileWrite k c => fsWrite fs k c

def applySteps (fs : FS) (steps : List PutStep) : FS :=
  steps.foldl applyStep fs

/-- entryDir: the path `cache/{file_format}/{stage}/{set_slug}/{piece_key}`
built by `save_stage_cache` and `load_stage_cache` (the common `cache_dir`
prefix is omitted; every path in the model is relative to it). -/
def entryDir (fileFormat stage setSlug pieceKey : String) : List String :=
  [fileFormat, stage, setSlug, pieceKey]

/-- putSteps: the sequence of filesystem effects of `save_stage_cache`:
`os.makedirs(piece_dir)`, then one direct write per dataframe in
`data_dict` (`df.to_pickle` / `df.to_csv` straight to the final path —
there is no temporary file and no rename in the source), then the
`metadata.json` write, then the `cache_index.json` rewrite performed by
`_update_index`/`_save_index` (its content is irrelevant to every claim and
abstracted as 0). -/
def putSteps (stage fileFormat setSlug pieceKey : String)
    (dataDict : List (String × Nat)) (metadata : Nat) : List PutStep :=
  PutStep.mkdir (entryDir fileFormat stage setSlug pieceKey) ::
    (dataDict.map (fun a =>
      PutStep.fileWrite ⟨entryDir fileFormat stage setSlug pieceKey, a.1, fileFormat⟩ a.2))
    ++ [PutStep.fileWrite ⟨entryDir fileFormat stage setSlug pieceKey, "metadata", "json"⟩ metadata,
        PutStep.fileWrite ⟨[], "cache_index", "json"⟩ 0]

/-- saveStageCache: `CrimCacheManager.save_stage_cache` (lines 91–121). -/
def saveStageCache (fs : FS) (stage fileFormat setSlug pieceKey : String)
    (dataDict : List (String × Nat)) (metadata : Nat) : FS :=
  applySteps fs (putSteps stage fileFormat setSlug pieceKey dataDict metadata)

/-- loadStageCache: `CrimCacheManager.load_stage_cache` (lines 123–164).
Returns `none` when the piece directory does not exist; otherwise builds a
dict keyed by file stem from every data file in the directory whose
extension matches the format (skipping `metadata.json`), then stores the
parsed metadata under the key `"metadata"` — overwriting any artifact of
that name, exactly as `result['metadata'] = json.load(f)` does. -/
def loadStageCache (fs : FS) (stage fileFormat setSlug pieceKey : String) :
    Option (List (String × Nat)) :=
  let d := entryDir fileFormat stage setSlug pieceKey
  if d ∈ fs.dirs then
    let entries := fs.files.filter (fun e => decide (e.1.dir = d))
    let arts := entries.filterMap (fun e =>
      if e.1.stem = "metadata" ∧ e.1.ext = "json" then none
      else if e.1.ext = fileFormat then some (e.1.stem, e.2) else none)
    some (match fsRead fs ⟨d, "metadata", "json"⟩ with
      | some m => arts.eraseP (fun a => decide (a.1 = "metadata")) ++ [("metadata", m)]
      | none => arts)
  else none

/-- hasStageCache: `CrimCacheManager.has_stage_cache` (lines 166–190).
Note the directory it checks is `{file_format}/{stage}/set{set_id}/{piece_key}`
(the source interpolates `f'set{set_id}'`), unlike `save_stage_cache` and
`load_stage_cache`, which use the slug verbatim. -/
def hasStageCache (fs : FS) (stage fileFormat setId pieceKey : String)
    (requiredFiles : List String) : Bool :=
  let d := [fileFormat, stage, "set" ++ setId, pieceKey]
  if d ∈ fs.dirs then
    requiredFiles.all (fun r => (fsRead fs ⟨d, r, fileFormat⟩).isSome)
  else false

/-- assocLookup: dictionary lookup on the assembled result. -/
def assocLookup (l : List (String × Nat)) (k : String) : Option Nat :=
  (l.find? (fun a => decide (a.1 = k))).map Prod.snd

/-! ### Inverted-index builder — `src/core/compare/melodic_ngram_values.py`

One source row of the query in `get_melodic_ngram_data` (a `melodic_ngrams`
row joined with its piece).  The pipeline populates `note_id` before this
stage runs, so it is modelled as a plain number.
-/

structure NgramRow where
  ngram_id : Nat
  piece_id : Nat
  set_id : Nat
  note_id : Nat
  voice : Nat
  voice_name : String
  onset : Int
  ngram : String
  ngram_length : Nat
  composer : String
deriving DecidableEq, Repr

/-- groupGlobal: the `global_values` accumulation of `process_ngram_data`
(lines 105–124): rows grouped by ngram value, in first-occurrence order. -/
def groupGlobal (rows : List NgramRow) : List (String × List NgramRow) :=
  accGroups (rows.map (fun r => (r.ngram, r)))

/-- groupBySet: the `set_values` accumulation of `process_ngram_data`
(lines 126–136): rows grouped by (ngram value, set id). -/
def groupBySet (rows : List NgramRow) : List ((String × Nat) × List NgramRow) :=
  accGroups (rows.map (fun r => ((r.ngram, r.set_id), r)))

/-- GlobalRow: one row of the `melodic_ngram_values` table
(schema in `init_compare_db.py`, lines 66–89; the `created_at`/`updated_at`
timestamp columns are not modelled). -/
structure GlobalRow where
  value_id : Nat
  ngram_value : String
  ngram_length : Nat
  total_occurrences : Nat
  total_sets : Nat
  note_ids : List Nat
  piece_ids : List Nat
  composers : List String
  piece_count : Nat
  composer_count : Nat
  voice_numbers : List Nat
  voice_names : List String
  voice_count : Nat
deriving DecidableEq, Repr

/-- mkGlobalRow: the row built for one global group by `insert_ngram_values`
(lines 177–200).  `note_ids = sorted(global_data['note_ids'])` sorts the
appended list without removing duplicates; `total_occurrences = len(note_ids)`;
the piece/composer/voice fields serialize Python sets as sorted lists;
`ngram_length` was taken from the first row of the group and `sets` collects
the distinct set ids. -/
def mkGlobalRow (vid : Nat) (v : String) (grp : List NgramRow) : GlobalRow :=
  let note_ids := natSorted (grp.map (fun r => r.note_id))
  let piece_ids := natSetSorted (grp.map (fun r => r.piece_id))
  let composers := strSetSorted (grp.map (fun r => r.composer))
  let voice_numbers := natSetSorted (grp.map (fun r => r.voice))
  let voice_names :=
    strSetSorted ((grp.filter (fun r => decide (r.voice_name ≠ ""))).map (fun r => r.voice_name))
  { value_id := vid
    ngram_value := v
    ngram_length := ((grp.head?).map (fun r => r.ngram_length)).getD 0
    total_occurrences := note_ids.length
    total_sets := ((grp.map (fun r => r.set_id)).dedup).length
    note_ids := note_ids
    piece_ids := piece_ids
    composers := composers
    piece_count := piece_ids.length
    composer_count := composers.length
    voice_numbers := voice_numbers
    voice_names := voice_names
    voice_count := voice_numbers.length }

/-- numberGlobals: `executemany` of the global INSERT assigns consecutive
AUTOINCREMENT `value_id`s starting after the persistent sequence value
`seq` (SQLite `sqlite_sequence` is *not* reset by `DELETE FROM`). -/
def numberGlobals (seq : Nat) : List (String × List NgramRow) → List GlobalRow
  | [] => []
  | (v, grp) :: rest => mkGlobalRow (seq + 1) v grp :: numberGlobals (seq + 1) rest

/-- SetRow: one row of the `melodic_ngram_value_sets` breakdown table
(schema lines 92–119 of `init_compare_db.py`; timestamps not modelled). -/
structure SetRow where
  value_set_id : Nat
  value_id : Nat
  melodic_ngram_set_id : Nat
  set_occurrences : Nat
  set_note_ids : List Nat
  set_piece_ids : List Nat
  set_composers : List String
  set_piece_count : Nat
  set_composer_count : Nat
  set_voice_numbers : List Nat
  set_voice_names : List String
  set_voice_count : Nat
deriving DecidableEq, Repr

/-- mkSetRow: the row built for one (value, set) group by
`insert_ngram_values` (lines 232–256).  `melodic_ngram_set_id` was stored
from the first row of the group. -/
def mkSetRow (vsid vid : Nat) (grp : List NgramRow) : SetRow :=
  let note_ids := natSorted (grp.map (fun r => r.note_id))
  let piece_ids := natSetSorted (grp.map (fun r => r.piece_id))
  let composers := strSetSorted (grp.map (fun r => r.composer))
  let voice_numbers := natSetSorted (grp.map (fun r => r.voice))
  let voice_names :=
    strSetSorted ((grp.filter (fun r => decide (r.voice_name ≠ ""))).map (fun r => r.voice_name))
  { value_set_id := vsid
    value_id := vid
    melodic_ngram_set_id := ((grp.head?).map (fun r => r.set_id)).getD 0
    set_occurrences := note_ids.length
    set_note_ids := note_ids
    set_piece_ids := piece_ids
    set_composers := composers
    set_piece_count := piece_ids.length
    set_composer_count := composers.length
    set_voice_numbers := voice_numbers
    set_voice_names := voice_names
    set_voice_count := voice_numbers.length }

/-- valueIdMap: `SELECT value_id, ngram_value FROM melodic_ngram_values`
read back into the `value_id_map` dict (lines 204–207). -/
def valueIdMap (globals : List GlobalRow) : List (String × Nat) :=
  globals.map (fun g => (g.ngram_value, g.value_id))

/-- lookupValueId: `value_id_map[ngram_value]`.  A missing key would raise
`KeyError` in the source; it cannot occur because every breakdown group's
value was also inserted globally (the default 0 is never reached). -/
def lookupValueId (m : List (String × Nat)) (v : String) : Nat :=
  ((m.find? (fun p => decide (p.1 = v))).map Prod.snd).getD 0

/-- numberSets: the breakdown INSERT, with AUTOINCREMENT `value_set_id`s
continuing after `seq` and the `value_id` foreign key resolved through the
map. -/
def numberSets (seq : Nat) (m : List (String × Nat)) :
    List ((String × Nat) × List NgramRow) → List SetRow
  | [] => []
  | (k, grp) :: rest => mkSetRow (seq + 1) (lookupValueId m k.1) grp :: numberSets (seq + 1) m rest

/-- CompareDB: the two derived tables plus the persistent SQLite
AUTOINCREMENT sequence values that survive `DELETE FROM`. -/
structure CompareDB where
  globalSeq : Nat
  setSeq : Nat
  globals : List GlobalRow
  setRows : List SetRow
deriving DecidableEq, Repr

def emptyCompareDB : CompareDB :=
  { globalSeq := 0, setSeq := 0, globals := [], setRows := [] }

/-- runIndexBuilder: one run of
`MelodicNgramValuesPopulator.populate_melodic_ngram_values` on a fixed
source: `process_ngram_data` then `insert_ngram_values`, which first
executes `DELETE FROM` on both tables (keeping the sequences) and then
inserts the freshly aggregated rows. -/
def runIndexBuilder (rows : List NgramRow) (db : CompareDB) : CompareDB :=
  let gl := numberGlobals db.globalSeq (groupGlobal rows)
  let st := numberSets db.setSeq (valueIdMap gl) (groupBySet rows)
  { globalSeq := db.globalSeq + gl.length
    setSeq := db.setSeq + st.length
    globals := gl
    setRows := st }

/-- globalContent: all columns of a global row except the AUTOINCREMENT
surrogate `value_id`. -/
def globalContent (g : GlobalRow) :
    String × Nat × Nat × Nat × List Nat × List Nat × List String × Nat × Nat ×
      List Nat × List String × Nat :=
  (g.ngram_value, g.ngram_length, g.total_occurrences, g.total_sets, g.note_ids,
   g.piece_ids, g.composers, g.piece_count, g.composer_count, g.voice_numbers,
   g.voice_names, g.voice_count)

/-- setContent: all columns of a breakdown row except the surrogate
`value_set_id` and the `value_id` foreign key (both derived from the
AUTOINCREMENT sequences). -/
def setContent (s : SetRow) :
    Nat × Nat × List Nat × List Nat × List String × Nat × Nat × List Nat ×
      List String × Nat :=
  (s.melodic_ngram_set_id, s.set_occurrences, s.set_note_ids, s.set_piece_ids,
   s.set_composers, s.set_piece_count, s.set_composer_count, s.set_voice_numbers,
   s.set_voice_names, s.set_voice_count)

/-! ### Pairwise similarity miners —
`src/core/compare/piece_pair_values.py` (collapsed) and
`src/core/compare/piece_pair_value_sources.py` (configuration-aware)
-/

/-- PieceInfo: one row of `get_pieces_info` (title/filename omitted — no
claim mentions them). -/
structure PieceInfo where
  piece_id : Nat
  composer : String
deriving DecidableEq, Repr

/-- SetInfo: one row of `get_sets_info` (description omitted). -/
structure SetInfo where
  set_id : Nat
  slug : String
  melodic_interval_set_id : Nat
  ngrams_number : Nat
  ngrams_entry : Bool
deriving DecidableEq, Repr

def composerOf (piecesInfo : List PieceInfo) (p : Nat) : String :=
  ((piecesInfo.find? (fun i => decide (i.piece_id = p))).map (fun i => i.composer)).getD ""

/-- generatePiecePairs: identical function in `piece_pair_values.py`
(lines 113–132) and `piece_pair_value_sources.py` (lines 143–162): the
nested index loops `for i in range(n): for j in range(i, n):` over the
sorted piece-id list, skipping `piece_a_id == piece_b_id`.  Written as the
equivalent structural recursion: at the element `a = ids[i]`, the inner
loop pairs `a` with `ids[j]` for `j ≥ i`, skipping equal values. -/
def generatePiecePairs : List Nat → List (Nat × Nat)
  | [] => []
  | a :: rest =>
      ((a :: rest).filterMap (fun b => if a = b then none else some (a, b)))
        ++ generatePiecePairs rest

/-- pieceNgrams: `get_piece_ngram_values` (collapsed miner, lines 71–111):
`{piece_id: {ngram_value: [note_ids]}}`, modelled as a grouping by piece of
(value, note) pairs; the inner dict of a piece is recovered with
`ngramsOfPiece`.  Grouping the inner list after the fact yields exactly the
incrementally-built nested `defaultdict`, because grouping preserves the
row order within each piece. -/
def pieceNgrams (rows : List NgramRow) : List (Nat × List (String × Nat)) :=
  accGroups (rows.map (fun r => (r.piece_id, (r.ngram, r.note_id))))

def ngramsOfPiece (rows : List NgramRow) (p : Nat) : List (String × List Nat) :=
  accGroups (lookupGroup (pieceNgrams rows) p)

/-- PairRec: one record destined for the `piece_pair_values` table
(collapsed miner, `find_shared_values`, lines 134–193). -/
structure PairRec where
  piece_a_id : Nat
  piece_b_id : Nat
  ngram_value : String
  ngram_length : Nat
  notes_in_a : List Nat
  notes_in_b : List Nat
  count_in_a : Nat
  count_in_b : Nat
  total_shared_notes : Nat
  composer_a : String
  composer_b : String
  same_composer : Bool
deriving DecidableEq, Repr

/-- commaLength: `ngram_value.count(',') + 1` (lines 169–173). -/
def commaLength (v : String) : Nat :=
  (v.toList.filter (fun c => decide (c = ','))).length + 1

/-- findSharedValues: the collapsed miner.  For each piece pair it
intersects the two pieces' ngram-value key sets and emits one record per
shared value, with `sorted(notes_in_x)` lists (no deduplication) and raw
list lengths as counts.  The Python `set & set` iteration order is
unspecified; the records' fields do not depend on it, and the model fixes
first-piece key order. -/
def findSharedValues (rows : List NgramRow) (piecePairs : List (Nat × Nat))
    (piecesInfo : List PieceInfo) : List PairRec :=
  piecePairs.flatMap (fun pr =>
    let na := ngramsOfPiece rows pr.1
    let nb := ngramsOfPiece rows pr.2
    ((keysOf na).filter (fun v => decide (v ∈ keysOf nb))).map (fun v =>
      let notesA := lookupGroup na v
      let notesB := lookupGroup nb v
      { piece_a_id := pr.1
        piece_b_id := pr.2
        ngram_value := v
        ngram_length := commaLength v
        notes_in_a := natSorted notesA
        notes_in_b := natSorted notesB
        count_in_a := notesA.length
        count_in_b := notesB.length
        total_shared_notes := notesA.length + notesB.length
        composer_a := composerOf piecesInfo pr.1
        composer_b := composerOf piecesInfo pr.2
        same_composer := decide (composerOf piecesInfo pr.1 = composerOf piecesInfo pr.2) }))

/-- pieceSetNgrams: `get_piece_set_ngram_values` (sources miner,
lines 98–141): `{(piece_id, set_id): {ngram_value: [note_ids]}}`. -/
def pieceSetNgrams (rows : List NgramRow) : List ((Nat × Nat) × List (String × Nat)) :=
  accGroups (rows.map (fun r => ((r.piece_id, r.set_id), (r.ngram, r.note_id))))

def ngramsAt (rows : List NgramRow) (p s : Nat) : List (String × List Nat) :=
  accGroups (lookupGroup (pieceSetNgrams rows) (p, s))

/-- SourceRec: one record destined for the `piece_pair_value_sources`
table (`find_shared_values_by_sets`, lines 173–259). -/
structure SourceRec where
  piece_a_id : Nat
  piece_b_id : Nat
  ngram_value : String
  set_a_id : Nat
  set_b_id : Nat
  notes_in_a : List Nat
  notes_in_b : List Nat
  count_in_a : Nat
  count_in_b : Nat
  pairs_count : Nat
  set_a_slug : String
  set_b_slug : String
  same_set_family : Bool
  composer_a : String
  composer_b : String
  same_composer : Bool
deriving DecidableEq, Repr

/-- sameSetFamily: `determine_set_family_similarity` (lines 164–171). -/
def sameSetFamily (a b : SetInfo) : Bool :=
  decide (a.melodic_interval_set_id = b.melodic_interval_set_id ∧
    a.ngrams_number = b.ngrams_number)

/-- findSharedValuesBySets: the configuration-aware miner.  For every piece
pair and every ordered pair of sets it intersects the per-(piece, set)
value key sets and emits one record per shared value.  The stored note-id
lists are `sorted(list(set(...)))` (deduplicated), while `count_in_a`,
`count_in_b` are the *raw* list lengths and
`pairs_count = count_in_a * count_in_b`.  The source iterates set ids and
looks their metadata up in `sets_info`; here the `SetInfo` rows are
iterated directly (same order, the query is `ORDER BY set_id`).  The
`if not ngrams_a or not ngrams_b: continue` and
`if not shared_values: continue` guards drop no records and are omitted. -/
def findSharedValuesBySets (rows : List NgramRow) (piecePairs : List (Nat × Nat))
    (piecesInfo : List PieceInfo) (setsInfo : List SetInfo) : List SourceRec :=
  piecePairs.flatMap (fun pr =>
    setsInfo.flatMap (fun sa =>
      setsInfo.flatMap (fun sb =>
        let na := ngramsAt rows pr.1 sa.set_id
        let nb := ngramsAt rows pr.2 sb.set_id
        ((keysOf na).filter (fun v => decide (v ∈ keysOf nb))).map (fun v =>
          let notesA := lookupGroup na v
          let notesB := lookupGroup nb v
          { piece_a_id := pr.1
            piece_b_id := pr.2
            ngram_value := v
            set_a_id := sa.set_id
            set_b_id := sb.set_id
            notes_in_a := natSetSorted notesA
            notes_in_b := natSetSorted notesB
            count_in_a := notesA.length
            count_in_b := notesB.length
            pairs_count := notesA.length * notesB.length
            set_a_slug := sa.slug
            set_b_slug := sb.slug
            same_set_family := sameSetFamily sa sb
            composer_a := composerOf piecesInfo pr.1
            composer_b := composerOf piecesInfo pr.2
            same_composer :=
              decide (composerOf piecesInfo pr.1 = composerOf piecesInfo pr.2) }))))

/-! ### Note-pair generator — `src/core/compare/note_pairs.py` -/

/-- NoteRow: the columns of the `notes` table used by the generator and
the reconciler (piece id, voice, onset, surrogate id). -/
structure NoteRow where
  note_id : Nat
  piece_id : Nat
  voice : Nat
  onset : Int
deriving DecidableEq, Repr

/-- NotePairRow: one row of `note_pairs` as produced by the INSERT…SELECT
in `generate_note_pairs` (lines 172–199). -/
structure NotePairRow where
  note_a_id : Nat
  note_b_id : Nat
  composer_a : String
  composer_b : String
  same_composer : Bool
  piece_a_id : Nat
  piece_b_id : Nat
  same_piece : Bool
  voice_a : Nat
  voice_b : Nat
  same_voice : Bool
  onset_a : Int
  onset_b : Int
deriving DecidableEq, Repr

/-- generateNotePairs: `FROM notes a CROSS JOIN notes b INNER JOIN pieces
pa ON a.piece_id = pa.piece_id INNER JOIN pieces pb ON b.piece_id =
pb.piece_id WHERE a.note_id <= b.note_id` — every ordered pair with
`note_a_id ≤ note_b_id`, self-pairs included; a note whose piece is absent
from `pieces` is dropped by the inner join. -/
def generateNotePairs (notes : List NoteRow) (pieces : List PieceInfo) : List NotePairRow :=
  notes.flatMap (fun a =>
    notes.filterMap (fun b =>
      if a.note_id ≤ b.note_id then
        match pieces.find? (fun p => decide (p.piece_id = a.piece_id)),
              pieces.find? (fun p => decide (p.piece_id = b.piece_id)) with
        | some pa, some pb =>
            some { note_a_id := a.note_id
                   note_b_id := b.note_id
                   composer_a := pa.composer
                   composer_b := pb.composer
                   same_composer := decide (pa.composer = pb.composer)
                   piece_a_id := a.piece_id
                   piece_b_id := b.piece_id
                   same_piece := decide (a.piece_id = b.piece_id)
                   voice_a := a.voice
                   voice_b := b.voice
                   same_voice := decide (a.voice = b.voice)
                   onset_a := a.onset
                   onset_b := b.onset }
        | _, _ => none
      else none))

/-! ### Fuzzy-join reconciler — `src/core/utils/note_id_updater.py`

`find_note_id` runs
`SELECT note_id FROM notes WHERE piece_id = ? AND voice = ? AND
 ABS(onset - ?) <= ? ORDER BY ABS(onset - ?) ASC LIMIT 1`.
The scan delivers the matching notes in the order of the
`notes(piece_id, voice, onset)` index — ascending onset, ties in rowid
(= note_id) order — and `LIMIT 1` keeps the first row attaining the
minimal absolute difference.

`_update_all_at_once` instead builds `temp_note_mapping` by LEFT JOIN on
`ABS(n.onset - t.onset) <= tolerance` (one mapping row per candidate, in
the same index order) and then updates with the *unordered* scalar
subquery `(SELECT matched_note_id FROM temp_note_mapping WHERE target_id =
…)`, which yields the first mapping row for the target — the candidate
that is first in (onset, note_id) order, with no comparison of absolute
differences anywhere.
-/

/-- noteIdxLe: the `notes(piece_id, voice, onset)` index order restricted
to one (piece, voice) bucket: ascending onset, then ascending rowid. -/
def noteIdxLe (a b : NoteRow) : Prop :=
  a.onset < b.onset ∨ (a.onset = b.onset ∧ a.note_id ≤ b.note_id)

instance : DecidableRel noteIdxLe := fun a b => by
  unfold noteIdxLe
  infer_instance

instance : IsTotal NoteRow noteIdxLe :=
  ⟨fun a b => by
    unfold noteIdxLe
    rcases lt_trichotomy a.onset b.onset with h | h | h
    · exact Or.inl (Or.inl h)
    · rcases Nat.le_total a.note_id b.note_id with h2 | h2
      · exact Or.inl (Or.inr ⟨h, h2⟩)
      · exact Or.inr (Or.inr ⟨h.symm, h2⟩)
    · exact Or.inr (Or.inl h)⟩

instance : IsTrans NoteRow noteIdxLe :=
  ⟨fun a b c hab hbc => by
    unfold noteIdxLe at hab hbc ⊢
    rcases hab with h1 | ⟨h1, h1i⟩
    · rcases hbc with h2 | ⟨h2, h2i⟩
      · exact Or.inl (h1.trans h2)
      · exact Or.inl (lt_of_lt_of_le h1 (le_of_eq h2))
    · rcases hbc with h2 | ⟨h2, h2i⟩
      · exact Or.inl (lt_of_le_of_lt (le_of_eq h1) h2)
      · exact Or.inr ⟨h1.trans h2, h1i.trans h2i⟩⟩

/-- candidatesWithin: the notes matching the WHERE clause, in index scan
order. -/
def candidatesWithin (notes : List NoteRow) (p v : Nat) (o ε : Int) : List NoteRow :=
  (notes.insertionSort noteIdxLe).filter
    (fun n => decide (n.piece_id = p ∧ n.voice = v ∧ |n.onset - o| ≤ ε))

/-- closerTo: the accumulator of `ORDER BY ABS(onset - o) ASC LIMIT 1`:
keep the current best row unless a strictly smaller difference appears
(ties keep the earlier row of the scan). -/
def closerTo (o : Int) (best : Option NoteRow) (n : NoteRow) : Option NoteRow :=
  match best with
  | none => some n
  | some m => if |n.onset - o| < |m.onset - o| then some n else some m

/-- findNoteId: `NoteIdUpdater.find_note_id` (lines 30–72). -/
def findNoteId (notes : List NoteRow) (p v : Nat) (o ε : Int) : Option Nat :=
  ((candidatesWithin notes p v o ε).foldl (closerTo o) none).map (fun n => n.note_id)

/-- batchMatchNoteId: the note assigned to one target row by the
`temp_note_mapping` scalar subquery of `_update_all_at_once`
(lines 385–450): the first candidate in index order, irrespective of its
absolute difference. -/
def batchMatchNoteId (notes : List NoteRow) (p v : Nat) (o ε : Int) : Option Nat :=
  ((candidatesWithin notes p v o ε).head?).map (fun n => n.note_id)

/-- AnalysisRow: one row of `melodic_intervals` / `melodic_ngrams` /
`melodic_entries` as seen by the updater (primary key, join columns and
the nullable `note_id`). -/
structure AnalysisRow where
  row_id : Nat
  piece_id : Nat
  voice : Nat
  onset : Int
  note_id : Option Nat
deriving DecidableEq, Repr

/-- updateAllAtOnce: one run of `_update_all_at_once` over a table.  The
temp mapping contains exactly the rows `WHERE t.note_id IS NULL`, and the
UPDATE touches only targets with a non-NULL `matched_note_id`, writing the
first mapping row's note id; every other row — in particular every row
whose `note_id` is already set — is left untouched. -/
def updateAllAtOnce (notes : List NoteRow) (ε : Int) (rows : List AnalysisRow) :
    List AnalysisRow :=
  rows.map (fun r =>
    if r.note_id.isSome then r
    else
      match batchMatchNoteId notes r.piece_id r.voice r.onset ε with
      | some nid => { r with note_id := some nid }
      | none => r)

/-- unmatchedCount: the number of rows `WHERE note_id IS NULL` (the
diagnostic the source reports after each run). -/
def unmatchedCount (rows : List AnalysisRow) : Nat :=
  (rows.filter (fun r => decide (r.note_id = none))).length

/-! ### Concrete scenario data used by the claim theorems

All onsets are in the 10^-4-beat quantum of the modelling convention.
-/

/-- c1Notes: two notes of (piece 1, voice 1): id 10 at onset 0.0000 and
id 11 at onset 0.0008. -/
def c1Notes : List NoteRow := [⟨10, 1, 1, 0⟩, ⟨11, 1, 1, 8⟩]

/-- c1Row: an unmatched analysis row of (piece 1, voice 1) at onset
0.0006; with tolerance 0.001 both notes are candidates and id 11 is
strictly nearer (0.0002 vs 0.0006). -/
def c1Row : AnalysisRow := ⟨1, 1, 1, 6, none⟩

/-- c1SpecNotes: the spec example — notes at onset 0.0 (id 10) and
1.0 (id 11); the occurrence sits at 1.0004 with tolerance 0.001. -/
def c1SpecNotes : List NoteRow := [⟨10, 1, 1, 0⟩, ⟨11, 1, 1, 10000⟩]

/-- c1TieNotes: two equidistant candidates of (piece 1, voice 1): id 21
at onset 0.0002 and id 20 at onset 0.0010 — both at distance 0.0004 from
the row onset 0.0006, and the index scan meets id 21 first. -/
def c1TieNotes : List NoteRow := [⟨21, 1, 1, 2⟩, ⟨20, 1, 1, 10⟩]

/-- c2Dir: the entry directory of the cache scenario. -/
def c2Dir : List String := entryDir "pkl" "notes" "s1" "p1"

/-- c2OldFS: a filesystem holding one completed cache entry with
artifacts a ↦ 1, b ↦ 2 and metadata 5. -/
def c2OldFS : FS :=
  saveStageCache ⟨[], []⟩ "notes" "pkl" "s1" "p1" [("a", 1), ("b", 2)] 5

/-- c2NewSteps: the write sequence of a second put of the same entry with
artifacts a ↦ 10, b ↦ 20 and metadata 6. -/
def c2NewSteps : List PutStep := putSteps "notes" "pkl" "s1" "p1" [("a", 10), ("b", 20)] 6

/-- c2MidFS: the state after the second put is interrupted right after
writing artifact `a` (mkdir + one write). -/
def c2MidFS : FS := applySteps c2OldFS (c2NewSteps.take 2)

/-- c2NewFS: the state after the second put completes. -/
def c2NewFS : FS := applySteps c2OldFS c2NewSteps

/-- c3FS: a filesystem holding one completed `notes` entry saved under the
slug `cT`, with the three artifacts `save_notes_cache` writes. -/
def c3FS : FS :=
  saveStageCache ⟨[], []⟩ "notes" "pkl" "cT" "piece1"
    [("notes", 1), ("durations", 2), ("detail_index", 3)] 9

/-- c4FS: a put whose data dict uses the artifact name `metadata`
(content 5) next to the JSON metadata (content 7). -/
def c4FS : FS :=
  saveStageCache ⟨[], []⟩ "notes" "pkl" "s1" "p1" [("metadata", 5)] 7

/-- c4PriorFS: the filesystem after a first put storing the single
artifact `old ↦ 1` with metadata 3. -/
def c4PriorFS : FS :=
  saveStageCache ⟨[], []⟩ "notes" "pkl" "s1" "p1" [("old", 1)] 3

/-- c4StaleFS: a second put over the same (stage, format, slug, key)
storing only the artifact `new ↦ 2` with metadata 4 — the `old` data
file of the first put stays in the entry directory and is swept up by
the next load. -/
def c4StaleFS : FS :=
  saveStageCache c4PriorFS "notes" "pkl" "s1" "p1" [("new", 2)] 4

/-- c5Rows: the same pattern `x` at the same note 7 of piece 3, produced
by two different Configurations (sets 1 and 2) — the global bucket then
lists note 7 twice. -/
def c5Rows : List NgramRow :=
  [⟨1, 3, 1, 7, 1, "", 0, "x", 2, "J"⟩,
   ⟨2, 3, 2, 7, 1, "", 0, "x", 2, "J"⟩]

/-- c6Rows: a one-row source for the rerun experiment. -/
def c6Rows : List NgramRow := [⟨1, 3, 1, 7, 1, "", 0, "x", 2, "J"⟩]

/-- c6DB1: the state after the first Index Builder run on `c6Rows`. -/
def c6DB1 : CompareDB := runIndexBuilder c6Rows emptyCompareDB

/-- c6DB2: the state after the second, identical run. -/
def c6DB2 : CompareDB := runIndexBuilder c6Rows c6DB1

/-- c7Rows: the spec example — pattern `(-2,-2,-2)` occurs twice in piece 3
(notes 100, 101) and once in piece 7 (note 200), all under Configuration 5. -/
def c7Rows : List NgramRow :=
  [⟨1, 3, 5, 100, 1, "", 0, "(-2,-2,-2)", 3, "J"⟩,
   ⟨2, 3, 5, 101, 1, "", 4, "(-2,-2,-2)", 3, "J"⟩,
   ⟨3, 7, 5, 200, 1, "", 0, "(-2,-2,-2)", 3, "J"⟩]

def c7Pieces : List PieceInfo := [⟨3, "J"⟩, ⟨7, "J"⟩]

def c7Sets : List SetInfo := [⟨5, "cT_kd_n3_eF", 1, 3, false⟩]

/-- c10Rows: two occurrences of pattern `y` in piece 3 under set 5 whose
fuzzy reconciliation resolved to the *same* note 100, plus one occurrence
in piece 7 — so the deduplicated list of side A is strictly shorter than
its raw count. -/
def c10Rows : List NgramRow :=
  [⟨1, 3, 5, 100, 1, "", 0, "y", 2, "J"⟩,
   ⟨2, 3, 5, 100, 1, "", 4, "y", 2, "J"⟩,
   ⟨3, 7, 5, 200, 1, "", 0, "y", 2, "J"⟩]

def c10Pieces : List PieceInfo := [⟨3, "J"⟩, ⟨7, "J"⟩]

def c10Sets : List SetInfo := [⟨5, "cT_kd_n3_eF", 1, 3, false⟩]

/-- c8Notes: four distinct notes over two pieces for the note-pair
witness. -/
def c8Notes : List NoteRow := [⟨1, 1, 1, 0⟩, ⟨2, 1, 2, 0⟩, ⟨3, 2, 1, 0⟩, ⟨4, 2, 1, 4⟩]

def c8Pieces : List PieceInfo := [⟨1, "J"⟩, ⟨2, "K"⟩]

/-- c9Notes / c9Rows: reconciler witness data — one matchable unmatched
row, one already-matched row, one row with no note within tolerance. -/
def c9Notes : List NoteRow := [⟨10, 1, 1, 0⟩, ⟨11, 1, 1, 8⟩]

def c9Rows : List AnalysisRow :=
  [⟨1, 1, 1, 6, none⟩, ⟨2, 1, 1, 0, some 10⟩, ⟨3, 1, 1, 999, none⟩]


/-! ### Properties of the grouping and sorting models -/

@[simp] theorem keysOf_nil : keysOf ([] : List (κ × List ν)) = [] := rfl

@[simp] theorem keysOf_cons (g : κ × List ν) (gs : List (κ × List ν)) :
    keysOf (g :: gs) = g.1 :: keysOf gs := rfl

@[simp] theorem lookupGroup_nil (k : κ) : lookupGroup ([] : List (κ × List ν)) k = [] := rfl

@[simp] theorem lookupGroup_cons (g : κ × List ν) (gs : List (κ × List ν)) (k : κ) :
    lookupGroup (g :: gs) k = if g.1 = k then g.2 else lookupGroup gs k := by
  by_cases h : g.1 = k <;> simp [lookupGroup, List.find?, h]

@[simp] theorem insertGroup_nil (k : κ) (v : ν) :
    insertGroup ([] : List (κ × List ν)) k v = [(k, [v])] := rfl

theorem insertGroup_cons (g : κ × List ν) (gs : List (κ × List ν)) (k : κ) (v : ν) :
    insertGroup (g :: gs) k v
      = if g.1 = k then (g.1, g.2 ++ [v]) :: gs else g :: insertGroup gs k v := rfl

theorem lookupGroup_insertGroup_self (gs : List (κ × List ν)) (k : κ) (v : ν) :
    lookupGroup (insertGroup gs k v) k = lookupGroup gs k ++ [v] := by
  induction gs with
  | nil => simp
  | cons g rest ih =>
    by_cases h : g.1 = k
    · simp [insertGroup_cons, h]
    · simp [insertGroup_cons, h, ih]

theorem lookupGroup_insertGroup_ne (gs : List (κ × List ν)) (k q : κ) (v : ν)
    (h : q ≠ k) : lookupGroup (insertGroup gs k v) q = lookupGroup gs q := by
  induction gs with
  | nil => simp [Ne.symm h]
  | cons g rest ih =>
    by_cases hg : g.1 = k
    · have hq : ¬ g.1 = q := by rw [hg]; exact Ne.symm h
      simp [insertGroup_cons, hg, hq, Ne.symm h]
    · simp [insertGroup_cons, hg, ih]

theorem lookupGroup_accGroupsFrom (l : List (κ × ν)) (gs : List (κ × List ν)) (k : κ) :
    lookupGroup (accGroupsFrom gs l) k
      = lookupGroup gs k ++ (l.filter (fun p => decide (p.1 = k))).map Prod.snd := by
  induction l generalizing gs with
  | nil => simp [accGroupsFrom]
  | cons p rest ih =>
    have step : accGroupsFrom gs (p :: rest) = accGroupsFrom (insertGroup gs p.1 p.2) rest := rfl
    rw [step, ih]
    by_cases h : p.1 = k
    · subst h
      simp [lookupGroup_insertGroup_self]
    · rw [lookupGroup_insertGroup_ne gs p.1 k p.2 (Ne.symm h)]
      simp [h]

theorem lookupGroup_accGroups (l : List (κ × ν)) (k : κ) :
    lookupGroup (accGroups l) k = (l.filter (fun p => decide (p.1 = k))).map Prod.snd := by
  have h := lookupGroup_accGroupsFrom l [] k
  simpa [accGroups] using h

theorem keysOf_insertGroup (gs : List (κ × List ν)) (k : κ) (v : ν) :
    keysOf (insertGroup gs k v) = if k ∈ keysOf gs then keysOf gs else keysOf gs ++ [k] := by
  induction gs with
  | nil => simp
  | cons g rest ih =>
    by_cases h : g.1 = k
    · have hmem : k ∈ keysOf (g :: rest) := by simp [h]
      rw [if_pos hmem, insertGroup_cons, if_pos h]
      simp [h]
    · have hne : ¬ k = g.1 := Ne.symm h
      rw [insertGroup_cons, if_neg h]
      by_cases hm : k ∈ keysOf rest
      · have hmem : k ∈ keysOf (g :: rest) := by simp [hm]
        rw [if_pos hmem, keysOf_cons, keysOf_cons, ih, if_pos hm]
      · have hmem : k ∉ keysOf (g :: rest) := by simp [hne, hm]
        rw [if_neg hmem, keysOf_cons, keysOf_cons, ih, if_neg hm]
        simp

theorem nodup_keysOf_accGroupsFrom (l : List (κ × ν)) (gs : List (κ × List ν))
    (h : (keysOf gs).Nodup) : (keysOf (accGroupsFrom gs l)).Nodup := by
  induction l generalizing gs with
  | nil => simpa [accGroupsFrom] using h
  | cons p rest ih =>
    have step : accGroupsFrom gs (p :: rest) = accGroupsFrom (insertGroup gs p.1 p.2) rest := rfl
    rw [step]
    apply ih
    rw [keysOf_insertGroup]
    by_cases hm : p.1 ∈ keysOf gs
    · simpa [hm] using h
    · simp only [hm, if_false]
      rw [List.nodup_append]
      refine ⟨h, List.nodup_singleton _, ?_⟩
      intro a ha hb
      simp at hb
      exact hm (hb ▸ ha)

theorem nodup_keysOf_accGroups (l : List (κ × ν)) : (keysOf (accGroups l)).Nodup :=
  nodup_keysOf_accGroupsFrom l [] (by simp [keysOf])

theorem lookupGroup_eq_of_mem {gs : List (κ × List ν)} {k : κ} {vs : List ν}
    (hnd : (keysOf gs).Nodup) (hmem : (k, vs) ∈ gs) : lookupGroup gs k = vs := by
  induction gs with
  | nil => cases hmem
  | cons g rest ih =>
    rcases List.mem_cons.mp hmem with hmem1 | hmem1
    · rw [← hmem1]
      simp
    · have hk : k ∈ keysOf rest := by
        simp only [keysOf, List.mem_map]
        exact ⟨(k, vs), hmem1, rfl⟩
      have hnd1 : g.1 ∉ keysOf rest ∧ (keysOf rest).Nodup := by
        have := hnd
        simpa [keysOf, List.nodup_cons] using this
      have hne : ¬ g.1 = k := fun hc => hnd1.1 (hc ▸ hk)
      simp [hne]
      exact ih hnd1.2 hmem1

theorem mem_accGroups_eq {l : List (κ × ν)} {k : κ} {vs : List ν}
    (h : (k, vs) ∈ accGroups l) :
    vs = (l.filter (fun p => decide (p.1 = k))).map Prod.snd := by
  have h1 := lookupGroup_eq_of_mem (nodup_keysOf_accGroups l) h
  rw [← h1, lookupGroup_accGroups]

theorem lookupGroup_eq_nil_of_not_mem_keys {gs : List (κ × List ν)} {k : κ}
    (h : k ∉ keysOf gs) : lookupGroup gs k = [] := by
  induction gs with
  | nil => simp
  | cons g rest ih =>
    have h1 : ¬ g.1 = k := fun hc => h (by simp [keysOf, hc])
    have h2 : k ∉ keysOf rest := fun hc => h (by simp [keysOf] at hc ⊢; exact Or.inr hc)
    simp [h1]
    exact ih h2

theorem mem_keysOf_accGroups_of_mem {l : List (κ × ν)} {k : κ}
    (h : k ∈ l.map Prod.fst) : k ∈ keysOf (accGroups l) := by
  by_contra hc
  have hnil := lookupGroup_eq_nil_of_not_mem_keys hc
  rw [lookupGroup_accGroups] at hnil
  rcases List.mem_map.mp h with ⟨p, hp, hpk⟩
  have hmem : p ∈ l.filter (fun p => decide (p.1 = k)) := by
    simp [List.mem_filter, hp, hpk]
  rw [List.map_eq_nil_iff] at hnil
  rw [hnil] at hmem
  cases hmem

theorem keysOf_accGroupsFrom_subset (l : List (κ × ν)) (gs : List (κ × List ν)) :
    keysOf (accGroupsFrom gs l) ⊆ keysOf gs ++ l.map Prod.fst := by
  induction l generalizing gs with
  | nil => simp [accGroupsFrom]
  | cons p rest ih =>
    have step : accGroupsFrom gs (p :: rest) = accGroupsFrom (insertGroup gs p.1 p.2) rest := rfl
    rw [step]
    intro q hq
    have hq2 := ih (insertGroup gs p.1 p.2) hq
    rw [List.mem_append] at hq2
    rcases hq2 with h1 | h1
    · rw [keysOf_insertGroup] at h1
      by_cases hm : p.1 ∈ keysOf gs
      · rw [if_pos hm] at h1
        simp [h1]
      · rw [if_neg hm] at h1
        rcases List.mem_append.mp h1 with h2 | h2
        · simp [h2]
        · simp at h2
          simp [h2]
    · simp at h1
      simp [h1]

theorem mem_fst_of_mem_accGroups {l : List (κ × ν)} {k : κ} {vs : List ν}
    (h : (k, vs) ∈ accGroups l) : ∃ p ∈ l, p.1 = k := by
  have hk : k ∈ keysOf (accGroups l) := by
    simp only [keysOf, List.mem_map]
    exact ⟨(k, vs), h, rfl⟩
  have hk2 := keysOf_accGroupsFrom_subset l [] hk
  have hk3 : k ∈ l.map Prod.fst := by simpa [keysOf] using hk2
  rcases List.mem_map.mp hk3 with ⟨p, hp, hpk⟩
  exact ⟨p, hp, hpk⟩


theorem natSorted_sorted (l : List Nat) : (natSorted l).Sorted (· ≤ ·) :=
  List.sorted_insertionSort (· ≤ ·) l

theorem natSorted_perm (l : List Nat) : (natSorted l).Perm l :=
  List.perm_insertionSort (· ≤ ·) l

theorem natSorted_length (l : List Nat) : (natSorted l).length = l.length :=
  (natSorted_perm l).length_eq

theorem natSetSorted_nodup (l : List Nat) : (natSetSorted l).Nodup :=
  ((natSorted_perm l.dedup).nodup_iff).mpr (List.nodup_dedup l)

theorem natSetSorted_sorted (l : List Nat) : (natSetSorted l).Sorted (· ≤ ·) :=
  natSorted_sorted l.dedup

theorem natSetSorted_length_le (l : List Nat) : (natSetSorted l).length ≤ l.length := by
  rw [natSetSorted, natSorted_length]
  exact (List.dedup_sublist l).length_le

/-! ### Claim C2 — cache write atomicity -/

/-- C2 counterexample: the claim states that after any prefix of a put's
write steps the previously stored entry is either fully the old version or
fully the new version.  `c2MidFS` is the state after the prefix of the
second put consisting of its first two steps (mkdir and the write of
artifact `a`): there artifact `a` already holds the new content 10
(old: 1) while artifact `b` still holds the old content 2 (new: 20) —
the entry agrees with neither the old nor the new version. -/
theorem C2_counterexample :
    fsRead c2MidFS ⟨c2Dir, "a", "pkl"⟩ = some 10
    ∧ fsRead c2OldFS ⟨c2Dir, "a", "pkl"⟩ = some 1
    ∧ fsRead c2MidFS ⟨c2Dir, "b", "pkl"⟩ = some 2
    ∧ fsRead c2NewFS ⟨c2Dir, "b", "pkl"⟩ = some 20 := by
  decide

/-- C2 (amended): `save_stage_cache` performs no write-to-temp and no
rename — it writes each artifact and then the metadata directly to its
final path, so an interrupted put (here: stopped after the mkdir and the
first artifact write, state `c2MidFS`) leaves the prior valid entry with a
mix of old and new artifact contents; only a completed put leaves the
entry fully at the new version. -/
theorem C2_put_writes_directly_in_place :
    (fsRead c2NewFS ⟨c2Dir, "a", "pkl"⟩ = some 10
      ∧ fsRead c2NewFS ⟨c2Dir, "b", "pkl"⟩ = some 20
      ∧ fsRead c2NewFS ⟨c2Dir, "metadata", "json"⟩ = some 6)
    ∧ (c2MidFS = applySteps c2OldFS (c2NewSteps.take 2)
      ∧ c2NewSteps.length = 5
      ∧ fsRead c2MidFS ⟨c2Dir, "a", "pkl"⟩ = some 10
      ∧ fsRead c2MidFS ⟨c2Dir, "b", "pkl"⟩ = some 2) := by
  decide

/-! ### Claim C3 — cache existence check coherence -/

/-- C3: after a completed put of exactly the three notes artifacts under
(stage `notes`, slug `cT`, key `piece1`), the exists check with the same
slug and the same artifact names reports a miss, because
`has_stage_cache` looks under `set{slug}` while `save_stage_cache` wrote
under `{slug}`; the entry is genuinely there (the load path finds it). -/
theorem C3_exists_misses_completed_put :
    hasStageCache c3FS "notes" "pkl" "cT" "piece1" ["notes", "durations", "detail_index"] = false
    ∧ loadStageCache c3FS "notes" "pkl" "cT" "piece1" ≠ none := by
  decide

/-! ### Claim C4 — cache round-trip and absent lookup -/

theorem assocLookup_cons (a : String × Nat) (l : List (String × Nat)) (k : String) :
    assocLookup (a :: l) k = if a.1 = k then some a.2 else assocLookup l k := by
  by_cases h : a.1 = k <;> simp [assocLookup, List.find?, h]

theorem assocLookup_eq_some_iff {l : List (String × Nat)} {k : String} {v : Nat}
    (hnd : (l.map Prod.fst).Nodup) : assocLookup l k = some v ↔ (k, v) ∈ l := by
  induction l with
  | nil => simp [assocLookup]
  | cons a l ih =>
    have hnd2 : (l.map Prod.fst).Nodup := (List.nodup_cons.mp hnd).2
    have hhead : a.1 ∉ l.map Prod.fst := (List.nodup_cons.mp hnd).1
    rw [assocLookup_cons]
    by_cases h : a.1 = k
    · subst h
      simp only [List.mem_cons]
      rw [if_pos trivial]
      constructor
      · intro hv
        have hv2 : a.2 = v := by injection hv
        left
        rw [← hv2]
      · intro hv
        rcases hv with hv | hv
        · rw [show v = a.2 from congrArg Prod.snd hv]
        · exact absurd (List.mem_map.mpr ⟨(a.1, v), hv, rfl⟩) hhead
    · rw [if_neg h, ih hnd2]
      simp only [List.mem_cons]
      constructor
      · exact Or.inr
      · intro hv
        rcases hv with hv | hv
        · exact absurd (congrArg Prod.fst hv).symm h
        · exact hv

theorem assocLookup_eq_none_iff {l : List (String × Nat)} {k : String} :
    assocLookup l k = none ↔ k ∉ l.map Prod.fst := by
  induction l with
  | nil => simp [assocLookup]
  | cons a l ih =>
    rw [assocLookup_cons]
    by_cases h : a.1 = k
    · simp [h]
    · simp only [if_neg h, ih, List.map_cons, List.mem_cons]
      constructor
      · intro h1 h2
        rcases h2 with h2 | h2
        · exact h h2.symm
        · exact h1 h2
      · intro h1 h2
        exact h1 (Or.inr h2)

theorem assocLookup_append (l₁ l₂ : List (String × Nat)) (k : String) :
    assocLookup (l₁ ++ l₂) k
      = match assocLookup l₁ k with
        | some v => some v
        | none => assocLookup l₂ k := by
  induction l₁ with
  | nil => simp [assocLookup]
  | cons a l ih =>
    rw [List.cons_append, assocLookup_cons, assocLookup_cons]
    by_cases h : a.1 = k <;> simp [h, ih]

theorem assocLookup_reverse {l : List (String × Nat)}
    (hnd : (l.map Prod.fst).Nodup) (k : String) :
    assocLookup l.reverse k = assocLookup l k := by
  have hndr : (l.reverse.map Prod.fst).Nodup := by
    rw [List.map_reverse, List.nodup_reverse]
    exact hnd
  cases h : assocLookup l k with
  | some v =>
    rw [assocLookup_eq_some_iff hndr]
    rw [assocLookup_eq_some_iff hnd] at h
    simpa using h
  | none =>
    rw [assocLookup_eq_none_iff] at h
    rw [assocLookup_eq_none_iff, List.map_reverse, List.mem_reverse]
    exact h

theorem filter_eraseP_of_disjoint {α : Type} (p q : α → Bool) (l : List α)
    (h : ∀ e ∈ l, ¬(p e = true ∧ q e = true)) :
    (l.eraseP q).filter p = l.filter p := by
  induction l with
  | nil => simp
  | cons a l ih =>
    rw [List.eraseP_cons]
    cases hq : q a
    · simp only [cond_false]
      rw [List.filter_cons, List.filter_cons, ih (fun e he => h e (by simp [he]))]
    · simp only [cond_true]
      have hp : ¬ p a = true := fun hp => h a (by simp) ⟨hp, hq⟩
      rw [List.filter_cons, if_neg hp]

/-- applySteps of a block of artifact writes whose keys are fresh: the new
files pile up in reverse order in front of the untouched old files, and
the directory list is unchanged. -/
theorem applySteps_artifact_writes (d : List String) (fmt : String) :
    ∀ (l : List (String × Nat)) (fs : FS),
      (∀ a ∈ l, ∀ e ∈ fs.files, e.1 ≠ FKey.mk d a.1 fmt) →
      (l.map Prod.fst).Nodup →
      applySteps fs (l.map (fun a => PutStep.fileWrite ⟨d, a.1, fmt⟩ a.2))
        = ⟨l.reverse.map (fun a => (⟨d, a.1, fmt⟩, a.2)) ++ fs.files, fs.dirs⟩ := by
  intro l
  induction l with
  | nil => intro fs _ _; simp [applySteps]
  | cons a l ih =>
    intro fs hdisj hnd
    have hstep : applySteps fs ((a :: l).map (fun a => PutStep.fileWrite ⟨d, a.1, fmt⟩ a.2))
        = applySteps (applyStep fs (PutStep.fileWrite ⟨d, a.1, fmt⟩ a.2))
            (l.map (fun a => PutStep.fileWrite ⟨d, a.1, fmt⟩ a.2)) := rfl
    have hnoer : fs.files.eraseP (fun e => decide (e.1 = FKey.mk d a.1 fmt)) = fs.files := by
      apply List.eraseP_of_forall_not
      intro e he
      simpa using hdisj a (by simp) e he
    have hfs1 : applyStep fs (PutStep.fileWrite ⟨d, a.1, fmt⟩ a.2)
        = ⟨(⟨d, a.1, fmt⟩, a.2) :: fs.files, fs.dirs⟩ := by
      simp [applyStep, fsWrite, hnoer]
    rw [hstep, hfs1]
    have hnd2 : (l.map Prod.fst).Nodup := (List.nodup_cons.mp hnd).2
    have hhead : a.1 ∉ l.map Prod.fst := (List.nodup_cons.mp hnd).1
    have hdisj2 : ∀ b ∈ l, ∀ e ∈ ((⟨d, a.1, fmt⟩, a.2) :: fs.files : List (FKey × Nat)),
        e.1 ≠ FKey.mk d b.1 fmt := by
      intro b hb e he
      rcases List.mem_cons.mp he with he1 | he1
      · rw [he1]
        intro hc
        have : a.1 = b.1 := by
          have := congrArg FKey.stem hc
          simpa using this
        exact hhead (this ▸ List.mem_map.mpr ⟨b, hb, rfl⟩)
      · exact hdisj b (by simp [hb]) e he1
    rw [ih _ hdisj2 hnd2]
    simp

/-- The directory list after `save_stage_cache`: exactly the entry
directory is created (the trailing writes do not touch directories). -/
theorem saveStageCache_dirs (fs : FS) (stage fmt slug key : String)
    (dataDict : List (String × Nat)) (m : Nat)
    (hfresh : ∀ e ∈ fs.files, e.1.dir ≠ entryDir fmt stage slug key)
    (hnd : (dataDict.map Prod.fst).Nodup) :
    (saveStageCache fs stage fmt slug key dataDict m).dirs
      = entryDir fmt stage slug key :: fs.dirs := by
  set d := entryDir fmt stage slug key with hd
  have hdisj : ∀ a ∈ dataDict, ∀ e ∈ (fsMkdir fs d).files, e.1 ≠ FKey.mk d a.1 fmt := by
    intro a _ e he hc
    exact hfresh e he (by rw [hc])
  have h1 : saveStageCache fs stage fmt slug key dataDict m
      = applySteps
          (applySteps (fsMkdir fs d)
            (dataDict.map (fun a => PutStep.fileWrite ⟨d, a.1, fmt⟩ a.2)))
          [PutStep.fileWrite ⟨d, "metadata", "json"⟩ m,
           PutStep.fileWrite ⟨[], "cache_index", "json"⟩ 0] := by
    rw [saveStageCache, putSteps, applySteps, applySteps, applySteps]
    simp [applyStep, List.foldl_append]
  rw [h1, applySteps_artifact_writes d fmt dataDict (fsMkdir fs d) hdisj hnd]
  simp [applySteps, applyStep, fsWrite, fsMkdir]

/-- The files of the entry directory after `save_stage_cache` on a fresh
directory: the metadata file followed by the artifacts in reverse write
order (and nothing else). -/
theorem saveStageCache_files_under_dir (fs : FS) (stage fmt slug key : String)
    (dataDict : List (String × Nat)) (m : Nat)
    (hfresh : ∀ e ∈ fs.files, e.1.dir ≠ entryDir fmt stage slug key)
    (hnd : (dataDict.map Prod.fst).Nodup)
    (hmeta : "metadata" ∉ dataDict.map Prod.fst) :
    (saveStageCache fs stage fmt slug key dataDict m).files.filter
        (fun e => decide (e.1.dir = entryDir fmt stage slug key))
      = (⟨entryDir fmt stage slug key, "metadata", "json"⟩, m)
          :: dataDict.reverse.map (fun a => (⟨entryDir fmt stage slug key, a.1, fmt⟩, a.2)) := by
  set d := entryDir fmt stage slug key with hd
  have hdisj : ∀ a ∈ dataDict, ∀ e ∈ (fsMkdir fs d).files, e.1 ≠ FKey.mk d a.1 fmt := by
    intro a _ e he hc
    exact hfresh e he (by rw [hc])
  have h1 : saveStageCache fs stage fmt slug key dataDict m
      = applySteps
          (applySteps (fsMkdir fs d)
            (dataDict.map (fun a => PutStep.fileWrite ⟨d, a.1, fmt⟩ a.2)))
          [PutStep.fileWrite ⟨d, "metadata", "json"⟩ m,
           PutStep.fileWrite ⟨[], "cache_index", "json"⟩ 0] := by
    rw [saveStageCache, putSteps, applySteps, applySteps, applySteps]
    simp [applyStep, List.foldl_append]
  rw [h1, applySteps_artifact_writes d fmt dataDict (fsMkdir fs d) hdisj hnd]
  -- the artifact block plus the two remaining writes
  have hart : ∀ e ∈ dataDict.reverse.map
      (fun a => ((⟨d, a.1, fmt⟩ : FKey), a.2)) ++ (fsMkdir fs d).files,
      ¬ (decide (e.1 = FKey.mk d "metadata" "json") = true) := by
    intro e he hc
    rw [decide_eq_true_eq] at hc
    rcases List.mem_append.mp he with he1 | he1
    · rcases List.mem_map.mp he1 with ⟨a, ha, hae⟩
      have hstem : a.1 = "metadata" := by
        rw [← hae] at hc
        exact congrArg FKey.stem hc
      exact hmeta (hstem ▸ List.mem_map.mpr ⟨a, List.mem_reverse.mp ha, rfl⟩)
    · exact hfresh e (by simpa [fsMkdir] using he1) (by rw [hc])
  simp only [applySteps, List.foldl_cons, List.foldl_nil, applyStep, fsWrite]
  rw [List.eraseP_of_forall_not hart]
  rw [List.filter_cons]
  have hidx : (decide ((FKey.mk ([] : List String) "cache_index" "json").dir = d)) = false := by
    simp [hd, entryDir]
  rw [hidx]
  simp only [Bool.false_eq_true, if_false]
  rw [filter_eraseP_of_disjoint]
  · rw [List.filter_cons]
    have hmetad : (decide ((FKey.mk d "metadata" "json").dir = d)) = true := by simp
    rw [hmetad, if_pos rfl]
    congr 1
    rw [List.filter_append]
    have hartfil : (dataDict.reverse.map (fun a => ((⟨d, a.1, fmt⟩ : FKey), a.2))).filter
        (fun e => decide (e.1.dir = d))
        = dataDict.reverse.map (fun a => ((⟨d, a.1, fmt⟩ : FKey), a.2)) := by
      apply List.filter_eq_self.mpr
      intro e he
      rcases List.mem_map.mp he with ⟨a, _, hae⟩
      simp [← hae]
    have horig : ((fsMkdir fs d).files).filter (fun e => decide (e.1.dir = d)) = [] := by
      apply List.filter_eq_nil_iff.mpr
      intro e he
      simpa using hfresh e (by simpa [fsMkdir] using he)
    rw [hartfil, horig, List.append_nil]
  · intro e he hboth
    rcases hboth with ⟨hp, hq⟩
    rw [decide_eq_true_eq] at hp hq
    have : e.1.dir = ([] : List String) := by rw [hq]
    rw [this] at hp
    have : d ≠ ([] : List String) := by simp [hd, entryDir]
    exact this hp.symm

theorem find?_filter_of_imp {α : Type} (p q : α → Bool) (l : List α)
    (h : ∀ e, p e = true → q e = true) : (l.filter q).find? p = l.find? p := by
  induction l with
  | nil => simp
  | cons a l ih =>
    rw [List.filter_cons]
    cases hq : q a
    · have hp : p a = false := by
        cases hpa : p a
        · rfl
        · exact absurd (h a hpa) (by simp [hq])
      simp only [Bool.false_eq_true, if_false]
      rw [ih, List.find?_cons, hp]
    · simp only [if_true]
      rw [List.find?_cons, List.find?_cons]
      cases hpa : p a
      · exact ih
      · rfl

/-- `find?` commutes with erasing by a predicate disjoint from the one
searched for. -/
theorem find?_eraseP_of_disjoint {α : Type} (p q : α → Bool) (l : List α)
    (h : ∀ a, q a = true → p a = false) :
    (l.eraseP q).find? p = l.find? p := by
  induction l with
  | nil => rfl
  | cons a t ih =>
    rw [List.eraseP_cons]
    cases hq : q a
    · simp only [cond_false]
      rw [List.find?_cons, List.find?_cons]
      cases hp : p a
      · exact ih
      · rfl
    · simp only [cond_true]
      rw [List.find?_cons, h a hq]

/-- Reading after a write: the written key returns the new content, every
other key is unaffected. -/
theorem fsRead_fsWrite (fs : FS) (k : FKey) (c : Nat) (k2 : FKey) :
    fsRead (fsWrite fs k c) k2 = if k2 = k then some c else fsRead fs k2 := by
  by_cases hk : k2 = k
  · subst hk
    rw [if_pos rfl]
    show (((k2, c) :: fs.files.eraseP (fun e => decide (e.1 = k2))).find?
        (fun e => decide (e.1 = k2))).map Prod.snd = some c
    rw [List.find?_cons]
    have h1 : (decide (((k2, c) : FKey × Nat).1 = k2)) = true := by simp
    rw [h1]
    rfl
  · rw [if_neg hk]
    show (((k, c) :: fs.files.eraseP (fun e => decide (e.1 = k))).find?
        (fun e => decide (e.1 = k2))).map Prod.snd = fsRead fs k2
    rw [List.find?_cons]
    have h1 : (decide (((k, c) : FKey × Nat).1 = k2)) = false := by
      simp only [decide_eq_false_iff_not]
      exact fun hc => hk hc.symm
    rw [h1]
    have h2 : ∀ a : FKey × Nat, decide (a.1 = k) = true → decide (a.1 = k2) = false := by
      intro a ha
      rw [decide_eq_true_eq] at ha
      simp only [decide_eq_false_iff_not]
      rw [ha]
      exact fun hc => hk hc.symm
    rw [find?_eraseP_of_disjoint _ _ _ h2]
    rfl

/-- After erasing the (unique) entry of key `k` from an association list
with duplicate-free keys, no entry of key `k` remains. -/
theorem eraseP_key_not_mem {α β : Type} [DecidableEq α] {l : List (α × β)} {k : α}
    (hnd : (l.map Prod.fst).Nodup) :
    ∀ a ∈ l.eraseP (fun e => decide (e.1 = k)), a.1 ≠ k := by
  induction l with
  | nil => intro a ha; cases ha
  | cons b t ih =>
    intro a ha
    rw [List.eraseP_cons] at ha
    cases hb : decide (b.1 = k)
    · simp only [hb, cond_false] at ha
      rcases List.mem_cons.mp ha with he | hm
      · subst he
        exact of_decide_eq_false hb
      · exact ih (List.nodup_cons.mp hnd).2 a hm
    · simp only [hb, cond_true] at ha
      have hbk : b.1 = k := of_decide_eq_true hb
      have hhead : b.1 ∉ t.map Prod.fst := (List.nodup_cons.mp hnd).1
      intro hak
      apply hhead
      rw [hbk, ← hak]
      exact List.mem_map.mpr ⟨a, ha, rfl⟩

/-- A write preserves duplicate-freeness of the file keys (the model's
filesystem invariant: one content per path). -/
theorem nodup_keys_fsWrite (fs : FS) (k : FKey) (c : Nat)
    (h : (fs.files.map Prod.fst).Nodup) :
    ((fsWrite fs k c).files.map Prod.fst).Nodup := by
  show (((k, c) :: fs.files.eraseP (fun e => decide (e.1 = k))).map Prod.fst).Nodup
  rw [List.map_cons]
  refine List.nodup_cons.mpr ⟨?_, ?_⟩
  · intro hmem
    rcases List.mem_map.mp hmem with ⟨a, ha, hak⟩
    exact eraseP_key_not_mem h a ha hak
  · exact h.sublist ((List.eraseP_sublist _).map Prod.fst)

/-- Every step sequence preserves the duplicate-free-keys invariant. -/
theorem nodup_keys_applySteps :
    ∀ (steps : List PutStep) (fs : FS),
      (fs.files.map Prod.fst).Nodup →
      ((applySteps fs steps).files.map Prod.fst).Nodup := by
  intro steps
  induction steps with
  | nil => intro fs h; exact h
  | cons s t ih =>
    intro fs h
    cases s with
    | mkdir d2 => exact ih _ h
    | fileWrite k c => exact ih _ (nodup_keys_fsWrite fs k c h)

/-- A block of artifact writes leaves the directory list unchanged. -/
theorem dirs_artifact_writes (d : List String) (fmt : String) :
    ∀ (l : List (String × Nat)) (fs : FS),
      (applySteps fs (l.map (fun a => PutStep.fileWrite ⟨d, a.1, fmt⟩ a.2))).dirs
        = fs.dirs := by
  intro l
  induction l with
  | nil => intro fs; rfl
  | cons a t ih =>
    intro fs
    exact ih (fsWrite fs ⟨d, a.1, fmt⟩ a.2)

/-- Reading an artifact path after a block of artifact writes: the write
of that stem wins if the stem was written (keys duplicate-free), and the
prior filesystem shows through otherwise. -/
theorem fsRead_artifact_writes (d : List String) (fmt : String) :
    ∀ (l : List (String × Nat)) (fs : FS) (k : String),
      (l.map Prod.fst).Nodup →
      fsRead (applySteps fs (l.map (fun a => PutStep.fileWrite ⟨d, a.1, fmt⟩ a.2)))
          ⟨d, k, fmt⟩
        = match assocLookup l k with
          | some v => some v
          | none => fsRead fs ⟨d, k, fmt⟩ := by
  intro l
  induction l with
  | nil => intro fs k _; rfl
  | cons a t ih =>
    intro fs k hnd
    have hstep : applySteps fs ((a :: t).map (fun a => PutStep.fileWrite ⟨d, a.1, fmt⟩ a.2))
        = applySteps (fsWrite fs ⟨d, a.1, fmt⟩ a.2)
            (t.map (fun a => PutStep.fileWrite ⟨d, a.1, fmt⟩ a.2)) := rfl
    rw [hstep, ih _ k (List.nodup_cons.mp hnd).2, assocLookup_cons]
    by_cases hk : a.1 = k
    · have ht : assocLookup t k = none := by
        rw [assocLookup_eq_none_iff]
        intro hmem
        exact (List.nodup_cons.mp hnd).1 (hk ▸ hmem)
      rw [ht, if_pos hk]
      show fsRead (fsWrite fs ⟨d, a.1, fmt⟩ a.2) ⟨d, k, fmt⟩ = some a.2
      rw [fsRead_fsWrite, if_pos (by rw [hk])]
    · rw [if_neg hk]
      cases ht : assocLookup t k with
      | some v => rfl
      | none =>
        show fsRead (fsWrite fs ⟨d, a.1, fmt⟩ a.2) ⟨d, k, fmt⟩ = fsRead fs ⟨d, k, fmt⟩
        rw [fsRead_fsWrite,
          if_neg (fun hc => hk (by injection hc with e1 e2 e3; exact e2.symm))]

/-- `save_stage_cache` unfolded into its four effects. -/
theorem saveStageCache_unfold (fs : FS) (stage fmt slug key : String)
    (dataDict : List (String × Nat)) (m : Nat) :
    saveStageCache fs stage fmt slug key dataDict m
      = fsWrite
          (fsWrite
            (applySteps (fsMkdir fs (entryDir fmt stage slug key))
              (dataDict.map (fun a =>
                PutStep.fileWrite ⟨entryDir fmt stage slug key, a.1, fmt⟩ a.2)))
            ⟨entryDir fmt stage slug key, "metadata", "json"⟩ m)
          ⟨[], "cache_index", "json"⟩ 0 := by
  simp only [saveStageCache, putSteps, applySteps, List.foldl_cons, List.foldl_append,
    List.foldl_nil, applyStep]

/-- After any put the entry directory exists (and nothing else changed in
the directory list). -/
theorem saveStageCache_dirs_eq (fs : FS) (stage fmt slug key : String)
    (dataDict : List (String × Nat)) (m : Nat) :
    (saveStageCache fs stage fmt slug key dataDict m).dirs
      = entryDir fmt stage slug key :: fs.dirs := by
  have h1 : ∀ (X : FS) (k : FKey) (c : Nat), (fsWrite X k c).dirs = X.dirs :=
    fun _ _ _ => rfl
  rw [saveStageCache_unfold, h1, h1, dirs_artifact_writes]
  rfl

/-- After any put the metadata file of the entry holds the put metadata. -/
theorem fsRead_saveStageCache_meta (fs : FS) (stage fmt slug key : String)
    (dataDict : List (String × Nat)) (m : Nat) :
    fsRead (saveStageCache fs stage fmt slug key dataDict m)
        ⟨entryDir fmt stage slug key, "metadata", "json"⟩ = some m := by
  rw [saveStageCache_unfold, fsRead_fsWrite, if_neg (by simp [entryDir]),
    fsRead_fsWrite, if_pos rfl]

/-- After any put, an artifact path of the entry reads back the stored
content for a stored stem and the prior file for any other stem. -/
theorem fsRead_saveStageCache_artifact (fs : FS) (stage fmt slug key : String)
    (dataDict : List (String × Nat)) (m : Nat) (k : String)
    (hnd : (dataDict.map Prod.fst).Nodup) (hk : k ≠ "metadata") :
    fsRead (saveStageCache fs stage fmt slug key dataDict m)
        ⟨entryDir fmt stage slug key, k, fmt⟩
      = match assocLookup dataDict k with
        | some v => some v
        | none => fsRead fs ⟨entryDir fmt stage slug key, k, fmt⟩ := by
  rw [saveStageCache_unfold, fsRead_fsWrite, if_neg (by simp [entryDir]),
    fsRead_fsWrite,
    if_neg (show (⟨entryDir fmt stage slug key, k, fmt⟩ : FKey)
        ≠ ⟨entryDir fmt stage slug key, "metadata", "json"⟩ from
      fun hc => hk (congrArg FKey.stem hc)),
    fsRead_artifact_writes _ _ dataDict _ k hnd]
  cases assocLookup dataDict k <;> rfl

/-- A put preserves the duplicate-free-keys invariant of the filesystem. -/
theorem nodup_keys_saveStageCache (fs : FS) (stage fmt slug key : String)
    (dataDict : List (String × Nat)) (m : Nat)
    (h : (fs.files.map Prod.fst).Nodup) :
    ((saveStageCache fs stage fmt slug key dataDict m).files.map Prod.fst).Nodup := by
  rw [saveStageCache]
  exact nodup_keys_applySteps _ fs h

/-- The artifact dict assembled by `load_stage_cache`, as a filter then a
rename: keep the data files of the right extension that are not
`metadata.json`, keyed by stem. -/
theorem loadArts_eq_map_filter (fmt : String) :
    ∀ (l : List (FKey × Nat)),
      l.filterMap (fun e =>
          if e.1.stem = "metadata" ∧ e.1.ext = "json" then none
          else if e.1.ext = fmt then some (e.1.stem, e.2) else none)
        = (l.filter (fun e =>
            decide (¬(e.1.stem = "metadata" ∧ e.1.ext = "json") ∧ e.1.ext = fmt))).map
            (fun e => (e.1.stem, e.2)) := by
  intro l
  induction l with
  | nil => rfl
  | cons e t ih =>
    rw [List.filterMap_cons, List.filter_cons]
    by_cases h1 : e.1.stem = "metadata" ∧ e.1.ext = "json"
    · have hp : decide (¬(e.1.stem = "metadata" ∧ e.1.ext = "json") ∧ e.1.ext = fmt)
          = false := by
        rw [decide_eq_false_iff_not]
        exact fun hc => hc.1 h1
      rw [if_pos h1, hp]
      simp only [Bool.false_eq_true, if_false]
      exact ih
    · by_cases h2 : e.1.ext = fmt
      · have hp : decide (¬(e.1.stem = "metadata" ∧ e.1.ext = "json") ∧ e.1.ext = fmt)
            = true := by
          rw [decide_eq_true_eq]
          exact ⟨h1, h2⟩
        rw [if_neg h1, if_pos h2, hp]
        simp only [if_true]
        rw [List.map_cons, ih]
      · have hp : decide (¬(e.1.stem = "metadata" ∧ e.1.ext = "json") ∧ e.1.ext = fmt)
            = false := by
          rw [decide_eq_false_iff_not]
          exact fun hc => h2 hc.2
        rw [if_neg h1, if_neg h2, hp]
        simp only [Bool.false_eq_true, if_false]
        exact ih

/-- On a filesystem with duplicate-free keys the assembled artifact dict
has duplicate-free stems (directory and extension are pinned, so a stem
determines the file). -/
theorem nodup_loadArts_keys (files : List (FKey × Nat)) (d : List String) (fmt : String)
    (hnd : (files.map Prod.fst).Nodup) :
    (((files.filter (fun e => decide (e.1.dir = d))).filterMap (fun e =>
        if e.1.stem = "metadata" ∧ e.1.ext = "json" then none
        else if e.1.ext = fmt then some (e.1.stem, e.2) else none)).map Prod.fst).Nodup := by
  rw [loadArts_eq_map_filter, List.map_map]
  have hsub : List.Sublist
      ((files.filter (fun e => decide (e.1.dir = d))).filter
        (fun e => decide (¬(e.1.stem = "metadata" ∧ e.1.ext = "json") ∧ e.1.ext = fmt)))
      files :=
    (List.filter_sublist _).trans (List.filter_sublist _)
  have hkeys : (((files.filter (fun e => decide (e.1.dir = d))).filter
      (fun e => decide (¬(e.1.stem = "metadata" ∧ e.1.ext = "json") ∧ e.1.ext = fmt))).map
        Prod.fst).Nodup :=
    hnd.sublist (hsub.map Prod.fst)
  have hpairs : ((files.filter (fun e => decide (e.1.dir = d))).filter
      (fun e => decide (¬(e.1.stem = "metadata" ∧ e.1.ext = "json") ∧ e.1.ext = fmt))).Nodup :=
    List.Nodup.of_map Prod.fst hkeys
  have hcomp : (Prod.fst ∘ (fun e : FKey × Nat => (e.1.stem, e.2)))
      = fun e : FKey × Nat => e.1.stem := rfl
  rw [hcomp]
  apply List.Nodup.map_on ?_ hpairs
  intro x hx y hy hstem
  have hxp := (List.mem_filter.mp hx).2
  have hxg := (List.mem_filter.mp (List.mem_filter.mp hx).1).2
  have hyp := (List.mem_filter.mp hy).2
  have hyg := (List.mem_filter.mp (List.mem_filter.mp hy).1).2
  have hxext : x.1.ext = fmt := (of_decide_eq_true hxp).2
  have hyext : y.1.ext = fmt := (of_decide_eq_true hyp).2
  have hxdir : x.1.dir = d := of_decide_eq_true hxg
  have hydir : y.1.dir = d := of_decide_eq_true hyg
  have hkey : x.1 = y.1 := by
    have hx1 : x.1 = ⟨x.1.dir, x.1.stem, x.1.ext⟩ := rfl
    have hy1 : y.1 = ⟨y.1.dir, y.1.stem, y.1.ext⟩ := rfl
    rw [hx1, hy1, hxdir, hydir, hxext, hyext, hstem]
  exact List.inj_on_of_nodup_map hkeys hx hy hkey

/-- Looking up a stem in the assembled artifact dict is reading the file
of that stem and the load format in the entry directory (with the
`metadata.json` skip). -/
theorem assocLookup_loadArts (d : List String) (fmt k : String)
    (hk : ¬(k = "metadata" ∧ fmt = "json")) :
    ∀ (files : List (FKey × Nat)),
      assocLookup ((files.filter (fun e => decide (e.1.dir = d))).filterMap (fun e =>
          if e.1.stem = "metadata" ∧ e.1.ext = "json" then none
          else if e.1.ext = fmt then some (e.1.stem, e.2) else none)) k
        = (files.find? (fun e => decide (e.1 = FKey.mk d k fmt))).map Prod.snd := by
  intro files
  induction files with
  | nil => rfl
  | cons e t ih =>
    rw [List.filter_cons, List.find?_cons]
    by_cases hdir : e.1.dir = d
    · have h1 : decide (e.1.dir = d) = true := by simp [hdir]
      rw [h1]
      simp only [if_true]
      rw [List.filterMap_cons]
      by_cases hmj : e.1.stem = "metadata" ∧ e.1.ext = "json"
      · have h2 : decide (e.1 = FKey.mk d k fmt) = false := by
          simp only [decide_eq_false_iff_not]
          intro hc
          apply hk
          have hs : e.1.stem = k := congrArg FKey.stem hc
          have he2 : e.1.ext = fmt := congrArg FKey.ext hc
          constructor
          · rw [← hs]
            exact hmj.1
          · rw [← he2]
            exact hmj.2
        simp only [if_pos hmj]
        rw [h2]
        exact ih
      · by_cases hext : e.1.ext = fmt
        · simp only [if_neg hmj, if_pos hext]
          rw [assocLookup_cons]
          by_cases hstem : e.1.stem = k
          · have h2 : decide (e.1 = FKey.mk d k fmt) = true := by
              rw [decide_eq_true_eq]
              have he : e.1 = ⟨e.1.dir, e.1.stem, e.1.ext⟩ := rfl
              rw [he, hdir, hstem, hext]
            rw [if_pos hstem, h2]
            rfl
          · have h2 : decide (e.1 = FKey.mk d k fmt) = false := by
              simp only [decide_eq_false_iff_not]
              intro hc
              exact hstem (congrArg FKey.stem hc)
            rw [if_neg hstem, h2]
            exact ih
        · have h2 : decide (e.1 = FKey.mk d k fmt) = false := by
            simp only [decide_eq_false_iff_not]
            intro hc
            exact hext (congrArg FKey.ext hc)
          simp only [if_neg hmj, if_neg hext]
          rw [h2]
          exact ih
    · have h1 : decide (e.1.dir = d) = false := by simp [hdir]
      have h2 : decide (e.1 = FKey.mk d k fmt) = false := by
        simp only [decide_eq_false_iff_not]
        intro hc
        exact hdir (by rw [hc])
      rw [h1, h2]
      simp only [Bool.false_eq_true, if_false]
      exact ih

/-- Erasing by a predicate that only hits other keys leaves every lookup
unchanged. -/
theorem assocLookup_eraseP_of_ne (q : String × Nat → Bool) {k : String}
    (l : List (String × Nat)) (h : ∀ a, q a = true → a.1 ≠ k) :
    assocLookup (l.eraseP q) k = assocLookup l k := by
  have hdisj : ∀ a : String × Nat, q a = true →
      (decide (a.1 = k)) = false := by
    intro a ha
    simp only [decide_eq_false_iff_not]
    exact h a ha
  show ((l.eraseP q).find? (fun a => decide (a.1 = k))).map Prod.snd
      = (l.find? (fun a => decide (a.1 = k))).map Prod.snd
  rw [find?_eraseP_of_disjoint _ _ _ hdisj]

/-- C4 (amended): a get after a put with the identical (stage, format,
slug, piece-key) key — over *any* prior filesystem state whose keys are
duplicate-free (one content per path, the filesystem invariant every put
preserves) — returns a dict in which every stored artifact is present
under its name, the reserved key `"metadata"` holds the stored metadata
(an artifact itself named `"metadata"` is clobbered by it, see the
counterexample, so the data dict may not use that name), and every other
name reads back the same-format data file already in the entry directory
— the stale artifact of an earlier put with different names, `none` if
there was no such file; a get on a key whose entry directory was never
created returns `none` rather than failing.  Persistence is inherent to
the model: the filesystem value is the only state a fresh process sees. -/
theorem C4_roundtrip_and_absent :
    (∀ (fs : FS) (stage fmt slug key : String) (dataDict : List (String × Nat))
        (metadata : Nat),
      (fs.files.map Prod.fst).Nodup →
      (dataDict.map Prod.fst).Nodup →
      "metadata" ∉ dataDict.map Prod.fst →
      ∃ l, loadStageCache (saveStageCache fs stage fmt slug key dataDict metadata)
              stage fmt slug key = some l
        ∧ ∀ k, assocLookup l k
            = if k = "metadata" then some metadata
              else match assocLookup dataDict k with
                | some v => some v
                | none => fsRead fs ⟨entryDir fmt stage slug key, k, fmt⟩)
    ∧ (∀ (fs : FS) (stage fmt slug key : String),
        entryDir fmt stage slug key ∉ fs.dirs →
        loadStageCache fs stage fmt slug key = none) := by
  constructor
  · intro fs stage fmt slug key dataDict m hfs hnd hmeta
    set d := entryDir fmt stage slug key with hd
    set saved := saveStageCache fs stage fmt slug key dataDict m with hsaved
    set arts := (saved.files.filter (fun e => decide (e.1.dir = d))).filterMap (fun e =>
        if e.1.stem = "metadata" ∧ e.1.ext = "json" then none
        else if e.1.ext = fmt then some (e.1.stem, e.2) else none) with harts
    have hdirs : saved.dirs = d :: fs.dirs :=
      saveStageCache_dirs_eq fs stage fmt slug key dataDict m
    have hread : fsRead saved ⟨d, "metadata", "json"⟩ = some m :=
      fsRead_saveStageCache_meta fs stage fmt slug key dataDict m
    have hndsaved : (saved.files.map Prod.fst).Nodup :=
      nodup_keys_saveStageCache fs stage fmt slug key dataDict m hfs
    have hartsnd : (arts.map Prod.fst).Nodup :=
      nodup_loadArts_keys saved.files d fmt hndsaved
    refine ⟨arts.eraseP (fun a => decide (a.1 = "metadata")) ++ [("metadata", m)], ?_, ?_⟩
    · rw [loadStageCache]
      simp only [← hd]
      rw [if_pos (show d ∈ saved.dirs from by
        rw [hdirs]; exact List.mem_cons_self d fs.dirs)]
      rw [hread, ← harts]
    · intro k
      rw [assocLookup_append]
      by_cases hk : k = "metadata"
      · subst hk
        rw [if_pos rfl]
        have hnone : assocLookup
            (arts.eraseP (fun a => decide (a.1 = "metadata"))) "metadata" = none := by
          rw [assocLookup_eq_none_iff]
          intro hmem
          rcases List.mem_map.mp hmem with ⟨a, ha, hak⟩
          exact eraseP_key_not_mem hartsnd a ha hak
        rw [hnone]
        show assocLookup [("metadata", m)] "metadata" = some m
        rw [assocLookup_cons, if_pos rfl]
      · rw [if_neg hk]
        have h1 : assocLookup (arts.eraseP (fun a => decide (a.1 = "metadata"))) k
            = assocLookup arts k := by
          apply assocLookup_eraseP_of_ne
          intro a ha
          rw [decide_eq_true_eq] at ha
          rw [ha]
          exact fun hc => hk hc.symm
        have h2 : assocLookup arts k
            = (saved.files.find? (fun e => decide (e.1 = FKey.mk d k fmt))).map Prod.snd := by
          rw [harts]
          exact assocLookup_loadArts d fmt k (fun hc => hk hc.1) saved.files
        have h3 : (saved.files.find? (fun e => decide (e.1 = FKey.mk d k fmt))).map Prod.snd
            = match assocLookup dataDict k with
              | some v => some v
              | none => fsRead fs ⟨d, k, fmt⟩ := by
          show fsRead saved ⟨d, k, fmt⟩ = _
          rw [hsaved, hd]
          exact fsRead_saveStageCache_artifact fs stage fmt slug key dataDict m k hnd hk
        rw [h1, h2, h3]
        cases ha : assocLookup dataDict k with
        | some v => rfl
        | none =>
          cases hb : fsRead fs ⟨d, k, fmt⟩ with
          | some w => rfl
          | none =>
            show assocLookup [("metadata", m)] k = none
            rw [assocLookup_cons, if_neg (fun hc => hk hc.symm)]
            rfl
  · intro fs stage fmt slug key h
    rw [loadStageCache]
    simp [h]

/-- C4 witness: the round-trip theorem applied to a re-put of the single
artifact `new ↦ 2` with metadata 4 over the entry already holding the
first put `c4PriorFS` (artifact `old ↦ 1`, metadata 3): the get returns
the new artifact and metadata, and the stale `old` data file of the first
put under the same name and format. -/
theorem C4_witness :
    (loadStageCache (saveStageCache c4PriorFS "notes" "pkl" "s1" "p1" [("new", 2)] 4)
        "notes" "pkl" "s1" "p1").map
      (fun l => (assocLookup l "new", assocLookup l "metadata", assocLookup l "old"))
      = some (some 2, some 4, some 1) := by
  obtain ⟨l, hl, hk⟩ := C4_roundtrip_and_absent.1 c4PriorFS "notes" "pkl" "s1" "p1"
    [("new", 2)] 4 (by decide) (by decide) (by decide)
  rw [hl]
  simp only [Option.map_some']
  have h1 := hk "new"
  have h2 := hk "metadata"
  have h3 := hk "old"
  rw [if_neg (by decide)] at h1
  rw [if_pos rfl] at h2
  rw [if_neg (by decide)] at h3
  rw [h1, h2, h3]
  decide

/-- C4 counterexample: the claim promises that get returns artifacts equal
to what was stored for *every* put-then-get.  Two refutations: storing an
artifact literally named `metadata` (content 5, metadata content 7)
returns 7 under that key, not the stored 5; and a re-put that stored only
`new ↦ 2` returns in addition the stale artifact `old ↦ 1` of the
previous put — a name the second put never stored. -/
theorem C4_counterexample :
    ((loadStageCache c4FS "notes" "pkl" "s1" "p1").map
        (fun l => assocLookup l "metadata") = some (some 7)
      ∧ assocLookup [("metadata", 5)] "metadata" = some 5)
    ∧ ((loadStageCache c4StaleFS "notes" "pkl" "s1" "p1").map
        (fun l => assocLookup l "old") = some (some 1)
      ∧ assocLookup [("new", 2)] "old" = none) := by
  decide

/-- C5 counterexample: with the same pattern at the same note produced by
two Configurations, the single global bucket written for `c5Rows` stores
`note_ids = [7, 7]` — not duplicate-free — and `total_occurrences = 2`,
while the list holds only 1 distinct id.  This refutes the claim that the
stored list is free of duplicates with `total_occurrences` equal to the
distinct count. -/
theorem C5_counterexample :
    (runIndexBuilder c5Rows emptyCompareDB).globals.map
        (fun g => (g.note_ids, g.total_occurrences, g.note_ids.dedup.length))
      = [([7, 7], 2, 1)]
    ∧ ¬ ([7, 7] : List Nat).Nodup := by
  decide

/-! ### Claim C6 — Index Builder idempotence -/

/-- C6 counterexample: two identical runs on the unchanged one-row source
`c6Rows` produce different tables: the AUTOINCREMENT surrogate
`value_id` is 1 after the first run and 2 after the second (SQLite's
sequence survives `DELETE FROM`), so the rebuilt tables are not
byte-identical. -/
theorem C6_counterexample :
    c6DB1.globals.map (fun g => g.value_id) = [1]
    ∧ c6DB2.globals.map (fun g => g.value_id) = [2]
    ∧ c6DB2.globals ≠ c6DB1.globals
    ∧ c6DB2.setRows ≠ c6DB1.setRows := by
  decide

theorem mem_numberGlobals {gs : List (String × List NgramRow)} {seq : Nat} {g : GlobalRow}
    (h : g ∈ numberGlobals seq gs) :
    ∃ vid v grp, (v, grp) ∈ gs ∧ g = mkGlobalRow vid v grp := by
  induction gs generalizing seq with
  | nil => cases h
  | cons p rest ih =>
    rw [show numberGlobals seq (p :: rest)
        = mkGlobalRow (seq + 1) p.1 p.2 :: numberGlobals (seq + 1) rest from rfl] at h
    rcases List.mem_cons.mp h with h1 | h1
    · exact ⟨seq + 1, p.1, p.2, by simp, h1⟩
    · rcases ih h1 with ⟨vid, v, grp, hm, hg⟩
      exact ⟨vid, v, grp, by simp [hm], hg⟩

theorem mem_numberSets {gs : List ((String × Nat) × List NgramRow)} {seq : Nat}
    {m : List (String × Nat)} {s : SetRow} (h : s ∈ numberSets seq m gs) :
    ∃ vsid k grp, (k, grp) ∈ gs ∧ s = mkSetRow vsid (lookupValueId m k.1) grp := by
  induction gs generalizing seq with
  | nil => cases h
  | cons p rest ih =>
    rw [show numberSets seq m (p :: rest)
        = mkSetRow (seq + 1) (lookupValueId m p.1.1) p.2 :: numberSets (seq + 1) m rest
        from rfl] at h
    rcases List.mem_cons.mp h with h1 | h1
    · exact ⟨seq + 1, p.1, p.2, by simp, h1⟩
    · rcases ih h1 with ⟨vsid, k, grp, hm, hs⟩
      exact ⟨vsid, k, grp, by simp [hm], hs⟩

/-- C5 (amended): every global inverted-index row stores a `note_ids` list
that is sorted ascending but may contain duplicates (one element per
source occurrence row), and `total_occurrences` equals the *length* of
that list — the occurrence count with multiplicity — not the number of
distinct ids. -/
theorem C5_note_ids_sorted_length_counted :
    ∀ (rows : List NgramRow) (db : CompareDB),
      ∀ g ∈ (runIndexBuilder rows db).globals,
        g.note_ids.Sorted (· ≤ ·) ∧ g.total_occurrences = g.note_ids.length := by
  intro rows db g hg
  have hg2 : g ∈ numberGlobals db.globalSeq (groupGlobal rows) := hg
  rcases mem_numberGlobals hg2 with ⟨vid, v, grp, _, hgeq⟩
  subst hgeq
  constructor
  · exact natSorted_sorted (grp.map (fun r => r.note_id))
  · rfl

/-- C5 witness: the amended theorem applied to the duplicate-producing
source `c5Rows` — the single global row, whose note-id list is `[7, 7]`. -/
theorem C5_witness :
    (mkGlobalRow 1 "x" c5Rows).note_ids.Sorted (· ≤ ·)
      ∧ (mkGlobalRow 1 "x" c5Rows).total_occurrences
          = (mkGlobalRow 1 "x" c5Rows).note_ids.length :=
  C5_note_ids_sorted_length_counted c5Rows emptyCompareDB
    (mkGlobalRow 1 "x" c5Rows) (by decide)

theorem map_globalContent_numberGlobals (seq : Nat) (gs : List (String × List NgramRow)) :
    (numberGlobals seq gs).map globalContent
      = gs.map (fun p => globalContent (mkGlobalRow 0 p.1 p.2)) := by
  induction gs generalizing seq with
  | nil => rfl
  | cons p rest ih =>
    rw [show numberGlobals seq (p :: rest)
        = mkGlobalRow (seq + 1) p.1 p.2 :: numberGlobals (seq + 1) rest from rfl,
      List.map_cons, List.map_cons, ih]
    rfl

theorem map_valueId_numberGlobals (seq : Nat) (gs : List (String × List NgramRow)) :
    (numberGlobals seq gs).map (fun g => g.value_id)
      = (List.range gs.length).map (fun i => seq + 1 + i) := by
  induction gs generalizing seq with
  | nil => rfl
  | cons p rest ih =>
    rw [show numberGlobals seq (p :: rest)
        = mkGlobalRow (seq + 1) p.1 p.2 :: numberGlobals (seq + 1) rest from rfl,
      List.map_cons, ih]
    rw [show (p :: rest).length = rest.length + 1 from rfl, List.range_succ_eq_map,
      List.map_cons, List.map_map]
    congr 1
    apply List.map_congr_left
    intro i _
    simp only [Function.comp_apply, Nat.succ_eq_add_one]
    omega

theorem map_setContent_numberSets (seq : Nat) (m : List (String × Nat))
    (gs : List ((String × Nat) × List NgramRow)) :
    (numberSets seq m gs).map setContent
      = gs.map (fun p => setContent (mkSetRow 0 0 p.2)) := by
  induction gs generalizing seq with
  | nil => rfl
  | cons p rest ih =>
    rw [show numberSets seq m (p :: rest)
        = mkSetRow (seq + 1) (lookupValueId m p.1.1) p.2 :: numberSets (seq + 1) m rest
        from rfl, List.map_cons, List.map_cons, ih]
    rfl

theorem map_valueSetId_numberSets (seq : Nat) (m : List (String × Nat))
    (gs : List ((String × Nat) × List NgramRow)) :
    (numberSets seq m gs).map (fun s => s.value_set_id)
      = (List.range gs.length).map (fun i => seq + 1 + i) := by
  induction gs generalizing seq with
  | nil => rfl
  | cons p rest ih =>
    rw [show numberSets seq m (p :: rest)
        = mkSetRow (seq + 1) (lookupValueId m p.1.1) p.2 :: numberSets (seq + 1) m rest
        from rfl, List.map_cons, ih]
    rw [show (p :: rest).length = rest.length + 1 from rfl, List.range_succ_eq_map,
      List.map_cons, List.map_map]
    congr 1
    apply List.map_congr_left
    intro i _
    simp only [Function.comp_apply, Nat.succ_eq_add_one]
    omega

theorem map_fk_numberSets (seq : Nat) (m : List (String × Nat))
    (gs : List ((String × Nat) × List NgramRow)) :
    (numberSets seq m gs).map (fun s => s.value_id)
      = gs.map (fun p => lookupValueId m p.1.1) := by
  induction gs generalizing seq with
  | nil => rfl
  | cons p rest ih =>
    rw [show numberSets seq m (p :: rest)
        = mkSetRow (seq + 1) (lookupValueId m p.1.1) p.2 :: numberSets (seq + 1) m rest
        from rfl, List.map_cons, List.map_cons, ih]
    rfl

theorem lookupValueId_numberGlobals_shift (gs : List (String × List NgramRow))
    (seq : Nat) (v : String) (hv : v ∈ gs.map Prod.fst) :
    lookupValueId (valueIdMap (numberGlobals seq gs)) v
      = lookupValueId (valueIdMap (numberGlobals 0 gs)) v + seq := by
  induction gs generalizing seq with
  | nil => cases hv
  | cons p rest ih =>
    by_cases h : p.1 = v
    · rw [show numberGlobals seq (p :: rest)
          = mkGlobalRow (seq + 1) p.1 p.2 :: numberGlobals (seq + 1) rest from rfl,
        show numberGlobals 0 (p :: rest)
          = mkGlobalRow 1 p.1 p.2 :: numberGlobals 1 rest from rfl]
      simp only [valueIdMap, List.map_cons, lookupValueId, List.find?_cons]
      rw [show (decide ((mkGlobalRow (seq + 1) p.1 p.2).ngram_value = v)) = true
          from by simp [mkGlobalRow, h],
        show (decide ((mkGlobalRow 1 p.1 p.2).ngram_value = v)) = true
          from by simp [mkGlobalRow, h]]
      simp [mkGlobalRow]
      omega
    · have hv2 : v ∈ rest.map Prod.fst := by
        rw [List.map_cons] at hv
        rcases List.mem_cons.mp hv with h1 | h1
        · exact absurd h1.symm h
        · exact h1
      rw [show numberGlobals seq (p :: rest)
          = mkGlobalRow (seq + 1) p.1 p.2 :: numberGlobals (seq + 1) rest from rfl,
        show numberGlobals 0 (p :: rest)
          = mkGlobalRow 1 p.1 p.2 :: numberGlobals 1 rest from rfl]
      simp only [valueIdMap, List.map_cons, lookupValueId, List.find?_cons]
      rw [show (decide ((mkGlobalRow (seq + 1) p.1 p.2).ngram_value = v)) = false
          from by simp [mkGlobalRow, h],
        show (decide ((mkGlobalRow 1 p.1 p.2).ngram_value = v)) = false
          from by simp [mkGlobalRow, h]]
      have h1 := ih (seq + 1) hv2
      have h2 := ih 1 hv2
      simp only [valueIdMap, lookupValueId] at h1 h2 ⊢
      omega

/-- C6 (amended): rerunning the Index Builder on an unchanged source
rebuilds both tables with identical content columns in identical row
order, but the SQLite AUTOINCREMENT surrogates are *not* byte-identical:
`value_id` and `value_set_id` are shifted by the sequence values left by
the previous run (`DELETE FROM` does not reset `sqlite_sequence`), and the
breakdown rows' `value_id` foreign keys shift with them. -/
theorem C6_rerun_content_stable_ids_shifted :
    ∀ (rows : List NgramRow) (db : CompareDB),
      (runIndexBuilder rows db).globals.map globalContent
          = (runIndexBuilder rows emptyCompareDB).globals.map globalContent
      ∧ (runIndexBuilder rows db).setRows.map setContent
          = (runIndexBuilder rows emptyCompareDB).setRows.map setContent
      ∧ (runIndexBuilder rows db).globals.map (fun g => g.value_id)
          = (runIndexBuilder rows emptyCompareDB).globals.map
              (fun g => g.value_id + db.globalSeq)
      ∧ (runIndexBuilder rows db).setRows.map (fun s => s.value_set_id)
          = (runIndexBuilder rows emptyCompareDB).setRows.map
              (fun s => s.value_set_id + db.setSeq)
      ∧ (runIndexBuilder rows db).setRows.map (fun s => s.value_id)
          = (runIndexBuilder rows emptyCompareDB).setRows.map
              (fun s => s.value_id + db.globalSeq) := by
  intro rows db
  refine ⟨?_, ?_, ?_, ?_, ?_⟩
  · rw [show (runIndexBuilder rows db).globals
        = numberGlobals db.globalSeq (groupGlobal rows) from rfl,
      show (runIndexBuilder rows emptyCompareDB).globals
        = numberGlobals 0 (groupGlobal rows) from rfl,
      map_globalContent_numberGlobals, map_globalContent_numberGlobals]
  · rw [show (runIndexBuilder rows db).setRows
        = numberSets db.setSeq (valueIdMap (numberGlobals db.globalSeq (groupGlobal rows)))
            (groupBySet rows) from rfl,
      show (runIndexBuilder rows emptyCompareDB).setRows
        = numberSets 0 (valueIdMap (numberGlobals 0 (groupGlobal rows)))
            (groupBySet rows) from rfl,
      map_setContent_numberSets, map_setContent_numberSets]
  · rw [show (runIndexBuilder rows db).globals
        = numberGlobals db.globalSeq (groupGlobal rows) from rfl,
      show (runIndexBuilder rows emptyCompareDB).globals
        = numberGlobals 0 (groupGlobal rows) from rfl,
      map_valueId_numberGlobals,
      show (fun g : GlobalRow => g.value_id + db.globalSeq)
        = (fun n => n + db.globalSeq) ∘ (fun g : GlobalRow => g.value_id) from rfl,
      ← List.map_map, map_valueId_numberGlobals, List.map_map]
    apply List.map_congr_left
    intro i _
    simp only [Function.comp_apply]
    omega
  · rw [show (runIndexBuilder rows db).setRows
        = numberSets db.setSeq (valueIdMap (numberGlobals db.globalSeq (groupGlobal rows)))
            (groupBySet rows) from rfl,
      show (runIndexBuilder rows emptyCompareDB).setRows
        = numberSets 0 (valueIdMap (numberGlobals 0 (groupGlobal rows)))
            (groupBySet rows) from rfl,
      map_valueSetId_numberSets,
      show (fun s : SetRow => s.value_set_id + db.setSeq)
        = (fun n => n + db.setSeq) ∘ (fun s : SetRow => s.value_set_id) from rfl,
      ← List.map_map, map_valueSetId_numberSets, List.map_map]
    apply List.map_congr_left
    intro i _
    simp only [Function.comp_apply]
    omega
  · rw [show (runIndexBuilder rows db).setRows
        = numberSets db.setSeq (valueIdMap (numberGlobals db.globalSeq (groupGlobal rows)))
            (groupBySet rows) from rfl,
      show (runIndexBuilder rows emptyCompareDB).setRows
        = numberSets 0 (valueIdMap (numberGlobals 0 (groupGlobal rows)))
            (groupBySet rows) from rfl,
      map_fk_numberSets,
      show (fun s : SetRow => s.value_id + db.globalSeq)
        = (fun n => n + db.globalSeq) ∘ (fun s : SetRow => s.value_id) from rfl,
      ← List.map_map, map_fk_numberSets, List.map_map]
    apply List.map_congr_left
    intro p hp
    simp only [Function.comp_apply]
    have hv : p.1.1 ∈ (groupGlobal rows).map Prod.fst := by
      rcases mem_fst_of_mem_accGroups hp with ⟨q, hq, hqk⟩
      rcases List.mem_map.mp hq with ⟨r, hr, hrq⟩
      have : r.ngram = p.1.1 := by
        rw [← hrq] at hqk
        exact congrArg Prod.fst hqk
      apply mem_keysOf_accGroups_of_mem
      rw [List.map_map]
      exact List.mem_map.mpr ⟨r, hr, by simpa using this⟩
    exact lookupValueId_numberGlobals_shift (groupGlobal rows) db.globalSeq p.1.1 hv

/-! ### Claim C7 — configuration-aware counting -/

theorem groupBySet_group_eq {rows : List NgramRow} {k : String × Nat} {grp : List NgramRow}
    (h : (k, grp) ∈ groupBySet rows) :
    grp = rows.filter (fun r => decide ((r.ngram, r.set_id) = k)) := by
  have h1 := mem_accGroups_eq h
  rw [List.filter_map] at h1
  rw [h1, List.map_map]
  have : (Prod.snd ∘ fun r : NgramRow => ((r.ngram, r.set_id), r)) = id := rfl
  rw [this, List.map_id]
  rfl

theorem lookupValueId_mem {gl : List GlobalRow} {v : String}
    (h : ∃ g ∈ gl, g.ngram_value = v) :
    ∃ g0 ∈ gl, g0.ngram_value = v ∧ lookupValueId (valueIdMap gl) v = g0.value_id := by
  induction gl with
  | nil =>
    rcases h with ⟨g, hg, _⟩
    cases hg
  | cons g rest ih =>
    by_cases hv : g.ngram_value = v
    · refine ⟨g, by simp, hv, ?_⟩
      simp only [valueIdMap, List.map_cons, lookupValueId, List.find?_cons]
      rw [show (decide ((g.ngram_value, g.value_id).1 = v)) = true from by simp [hv]]
      rfl
    · rcases h with ⟨g1, hg1, hg1v⟩
      rcases List.mem_cons.mp hg1 with h1 | h1
      · exact absurd (h1 ▸ hg1v) hv
      · rcases ih ⟨g1, h1, hg1v⟩ with ⟨g0, hg0, hg0v, hl⟩
        refine ⟨g0, by simp [hg0], hg0v, ?_⟩
        simp only [valueIdMap, List.map_cons, lookupValueId, List.find?_cons]
        rw [show (decide ((g.ngram_value, g.value_id).1 = v)) = false from by simp [hv]]
        simpa [valueIdMap, lookupValueId] using hl

theorem mem_numberGlobals_of_mem {gs : List (String × List NgramRow)} (seq : Nat)
    {v : String} {grp : List NgramRow} (h : (v, grp) ∈ gs) :
    ∃ vid, mkGlobalRow vid v grp ∈ numberGlobals seq gs := by
  induction gs generalizing seq with
  | nil => cases h
  | cons p rest ih =>
    rcases List.mem_cons.mp h with h1 | h1
    · refine ⟨seq + 1, ?_⟩
      rw [show numberGlobals seq (p :: rest)
          = mkGlobalRow (seq + 1) p.1 p.2 :: numberGlobals (seq + 1) rest from rfl, ← h1]
      simp
    · rcases ih (seq + 1) h1 with ⟨vid, hm⟩
      refine ⟨vid, ?_⟩
      rw [show numberGlobals seq (p :: rest)
          = mkGlobalRow (seq + 1) p.1 p.2 :: numberGlobals (seq + 1) rest from rfl]
      simp [hm]

theorem nodup_valueId_numberGlobals (seq : Nat) (gs : List (String × List NgramRow)) :
    ((numberGlobals seq gs).map (fun g => g.value_id)).Nodup := by
  rw [map_valueId_numberGlobals]
  exact (List.nodup_range gs.length).map (fun i j h => by omega)

/-- lookupGroup over the per-(piece, set) value dict unfolds to a plain
filter of the source rows. -/
theorem ngramsAt_lookup (rows : List NgramRow) (p s : Nat) (v : String) :
    lookupGroup (ngramsAt rows p s) v
      = (rows.filter
          (fun r => decide (r.piece_id = p ∧ r.set_id = s ∧ r.ngram = v))).map
          (fun r => r.note_id) := by
  have hinner : lookupGroup (pieceSetNgrams rows) (p, s)
      = (rows.filter (fun r => decide ((r.piece_id, r.set_id) = (p, s)))).map
          (fun r => (r.ngram, r.note_id)) := by
    rw [pieceSetNgrams, lookupGroup_accGroups, List.filter_map, List.map_map]
    rfl
  rw [ngramsAt, lookupGroup_accGroups, hinner, List.filter_map, List.map_map,
    List.filter_filter]
  exact congrArg (List.map _) (List.filter_congr (fun r hr => by
    by_cases h1 : r.piece_id = p <;> by_cases h2 : r.set_id = s <;>
      by_cases h3 : r.ngram = v <;>
      simp [h1, h2, h3, Prod.ext_iff, Function.comp]))

/-- Same unfolding for the collapsed miner's per-piece value dict. -/
theorem ngramsOfPiece_lookup (rows : List NgramRow) (p : Nat) (v : String) :
    lookupGroup (ngramsOfPiece rows p) v
      = (rows.filter (fun r => decide (r.piece_id = p ∧ r.ngram = v))).map
          (fun r => r.note_id) := by
  have hinner : lookupGroup (pieceNgrams rows) p
      = (rows.filter (fun r => decide (r.piece_id = p))).map
          (fun r => (r.ngram, r.note_id)) := by
    rw [pieceNgrams, lookupGroup_accGroups, List.filter_map, List.map_map]
    rfl
  rw [ngramsOfPiece, lookupGroup_accGroups, hinner, List.filter_map, List.map_map,
    List.filter_filter]
  exact congrArg (List.map _) (List.filter_congr (fun r hr => by
    by_cases h1 : r.piece_id = p <;> by_cases h3 : r.ngram = v <;>
      simp [h1, h3, Prod.ext_iff, Function.comp]))

/-- Unpacking one record of the configuration-aware miner. -/
theorem mem_findSharedValuesBySets {rows : List NgramRow} {piecePairs : List (Nat × Nat)}
    {piecesInfo : List PieceInfo} {setsInfo : List SetInfo} {rec : SourceRec}
    (h : rec ∈ findSharedValuesBySets rows piecePairs piecesInfo setsInfo) :
    ∃ pr ∈ piecePairs, ∃ sa ∈ setsInfo, ∃ sb ∈ setsInfo, ∃ v,
      rec.piece_a_id = pr.1 ∧ rec.piece_b_id = pr.2
      ∧ rec.set_a_id = sa.set_id ∧ rec.set_b_id = sb.set_id ∧ rec.ngram_value = v
      ∧ rec.notes_in_a = natSetSorted (lookupGroup (ngramsAt rows pr.1 sa.set_id) v)
      ∧ rec.notes_in_b = natSetSorted (lookupGroup (ngramsAt rows pr.2 sb.set_id) v)
      ∧ rec.count_in_a = (lookupGroup (ngramsAt rows pr.1 sa.set_id) v).length
      ∧ rec.count_in_b = (lookupGroup (ngramsAt rows pr.2 sb.set_id) v).length
      ∧ rec.pairs_count = rec.count_in_a * rec.count_in_b := by
  rw [findSharedValuesBySets] at h
  rcases List.mem_flatMap.mp h with ⟨pr, hpr, h2⟩
  rcases List.mem_flatMap.mp h2 with ⟨sa, hsa, h3⟩
  rcases List.mem_flatMap.mp h3 with ⟨sb, hsb, h4⟩
  rcases List.mem_map.mp h4 with ⟨v, _, hrec⟩
  refine ⟨pr, hpr, sa, hsa, sb, hsb, v, ?_⟩
  rw [← hrec]
  exact ⟨rfl, rfl, rfl, rfl, rfl, rfl, rfl, rfl, rfl, rfl⟩

/-- C7: (a) every breakdown row's occurrence count is the number of source
rows carrying its pattern value (the value of the global row its
`value_id` references) and its Configuration, across all pieces; (b) every
Shared Pattern Source record counts the raw occurrences of its value on
each side (piece, set) and multiplies them into `pairs_count`; (c) the
spec's concrete example: pattern `(-2,-2,-2)` twice in piece 3 and once in
piece 7 under Configuration 5 gives breakdown count 3 and the source
record (3, 7, 5, 5) with counts 2, 1 and `pairs_count` 2. -/
theorem C7_configuration_aware_counting :
    (∀ (rows : List NgramRow) (db : CompareDB),
      ∀ s ∈ (runIndexBuilder rows db).setRows,
      ∀ g ∈ (runIndexBuilder rows db).globals,
        g.value_id = s.value_id →
        s.set_occurrences = (rows.filter (fun r =>
          decide (r.ngram = g.ngram_value ∧ r.set_id = s.melodic_ngram_set_id))).length)
    ∧ (∀ (rows : List NgramRow) (piecePairs : List (Nat × Nat))
        (piecesInfo : List PieceInfo) (setsInfo : List SetInfo),
        ∀ rec ∈ findSharedValuesBySets rows piecePairs piecesInfo setsInfo,
          rec.count_in_a = (rows.filter (fun r =>
              decide (r.piece_id = rec.piece_a_id ∧ r.set_id = rec.set_a_id
                ∧ r.ngram = rec.ngram_value))).length
          ∧ rec.count_in_b = (rows.filter (fun r =>
              decide (r.piece_id = rec.piece_b_id ∧ r.set_id = rec.set_b_id
                ∧ r.ngram = rec.ngram_value))).length
          ∧ rec.pairs_count = rec.count_in_a * rec.count_in_b)
    ∧ ((runIndexBuilder c7Rows emptyCompareDB).setRows.map
          (fun s => s.set_occurrences) = [3]
        ∧ (findSharedValuesBySets c7Rows (generatePiecePairs [3, 7]) c7Pieces c7Sets).map
            (fun rec => (rec.piece_a_id, rec.piece_b_id, rec.set_a_id, rec.set_b_id))
            = [(3, 7, 5, 5)]
        ∧ (findSharedValuesBySets c7Rows (generatePiecePairs [3, 7]) c7Pieces c7Sets).map
            (fun rec => (rec.count_in_a, rec.count_in_b, rec.pairs_count))
            = [(2, 1, 2)]) := by
  refine ⟨?_, ?_, by decide, by decide, by decide⟩
  · intro rows db s hs g hg hid
    have hs2 : s ∈ numberSets db.setSeq
        (valueIdMap (numberGlobals db.globalSeq (groupGlobal rows))) (groupBySet rows) := hs
    have hg2 : g ∈ numberGlobals db.globalSeq (groupGlobal rows) := hg
    rcases mem_numberSets hs2 with ⟨vsid, k, grp, hkmem, hseq⟩
    -- the group is the filtered source
    have hgrp := groupBySet_group_eq hkmem
    -- the group is nonempty and all its rows carry the key
    rcases mem_fst_of_mem_accGroups hkmem with ⟨q, hq, hqk⟩
    rcases List.mem_map.mp hq with ⟨r0, hr0, hr0q⟩
    have hr0k : (r0.ngram, r0.set_id) = k := by
      rw [← hr0q] at hqk
      exact hqk
    have hr0grp : r0 ∈ grp := by
      rw [hgrp]
      exact List.mem_filter.mpr ⟨hr0, by simp [hr0k]⟩
    -- the key's value heads a global group, so the value-id map resolves it
    have hvkey : ∃ g1 ∈ numberGlobals db.globalSeq (groupGlobal rows), g1.ngram_value = k.1 := by
      have hkeys : k.1 ∈ keysOf (groupGlobal rows) := by
        apply mem_keysOf_accGroups_of_mem
        rw [List.map_map]
        refine List.mem_map.mpr ⟨r0, hr0, ?_⟩
        simp only [Function.comp_apply]
        exact congrArg Prod.fst hr0k
      rcases List.mem_map.mp hkeys with ⟨pg, hpg, hpgk⟩
      rcases mem_numberGlobals_of_mem db.globalSeq
        (show (pg.1, pg.2) ∈ groupGlobal rows from hpg) with ⟨vid, hvid⟩
      exact ⟨mkGlobalRow vid pg.1 pg.2, hvid, hpgk⟩
    rcases lookupValueId_mem hvkey with ⟨g0, hg0mem, hg0v, hlook⟩
    have hsvid : s.value_id
        = lookupValueId (valueIdMap (numberGlobals db.globalSeq (groupGlobal rows))) k.1 := by
      rw [hseq]
      rfl
    have hgg0 : g = g0 := by
      have hnd := nodup_valueId_numberGlobals db.globalSeq (groupGlobal rows)
      have hfid : g.value_id = g0.value_id := by rw [hid, hsvid, hlook]
      exact List.inj_on_of_nodup_map hnd hg2 hg0mem hfid
    have hgv : g.ngram_value = k.1 := by rw [hgg0]; exact hg0v
    have hsid : s.melodic_ngram_set_id = k.2 := by
      rw [hseq]
      cases hgc : grp with
      | nil => rw [hgc] at hr0grp; cases hr0grp
      | cons a t =>
        have ha : a ∈ grp := by rw [hgc]; simp
        have hak : (a.ngram, a.set_id) = k := by
          rw [hgrp] at ha
          have := (List.mem_filter.mp ha).2
          simpa using this
        show (((a :: t : List NgramRow).head?).map (fun r => r.set_id)).getD 0 = k.2
        simp only [List.head?_cons, Option.map_some', Option.getD_some]
        exact congrArg Prod.snd hak
    have hocc : s.set_occurrences = grp.length := by
      rw [hseq]
      show (natSorted (grp.map (fun r => r.note_id))).length = grp.length
      rw [natSorted_length, List.length_map]
    rw [hocc, hgrp, hgv, hsid]
    congr 1
    apply List.filter_congr
    intro r _
    by_cases h1 : r.ngram = k.1 <;> by_cases h2 : r.set_id = k.2 <;>
      simp [h1, h2, Prod.ext_iff]
  · intro rows piecePairs piecesInfo setsInfo rec hrec
    rcases mem_findSharedValuesBySets hrec with
      ⟨pr, _, sa, _, sb, _, v, hpa, hpb, hsa2, hsb2, hv, _, _, hca, hcb, hpc⟩
    refine ⟨?_, ?_, hpc⟩
    · rw [hca, ngramsAt_lookup, List.length_map, hpa, hsa2, hv]
    · rw [hcb, ngramsAt_lookup, List.length_map, hpb, hsb2, hv]

/-- C7 witness: the counting theorem applied to the spec's example data —
the breakdown row of `c7Rows` (surrogate ids 1, value id 1) counts 3
source rows. -/
theorem C7_witness :
    (mkSetRow 1 1 c7Rows).set_occurrences
      = (c7Rows.filter (fun r =>
          decide (r.ngram = (mkGlobalRow 1 "(-2,-2,-2)" c7Rows).ngram_value
            ∧ r.set_id = (mkSetRow 1 1 c7Rows).melodic_ngram_set_id))).length :=
  C7_configuration_aware_counting.1 c7Rows emptyCompareDB
    (mkSetRow 1 1 c7Rows) (by decide)
    (mkGlobalRow 1 "(-2,-2,-2)" c7Rows) (by decide) (by decide)

/-! ### Claim C8 — canonical pair ordering and self-pair placement -/

theorem filterMap_eq_map_of_some {α β : Type} {f : α → Option β} {g : α → β} :
    ∀ {l : List α}, (∀ y ∈ l, f y = some (g y)) → l.filterMap f = l.map g := by
  intro l
  induction l with
  | nil => intro _; rfl
  | cons a t ih =>
    intro h
    rw [List.filterMap_cons, h a (by simp), List.map_cons,
      ih (fun y hy => h y (by simp [hy]))]

theorem generatePiecePairs_mem {ids : List Nat} (hs : List.Sorted (· < ·) ids)
    {pr : Nat × Nat} (h : pr ∈ generatePiecePairs ids) :
    pr.1 < pr.2 ∧ pr.1 ∈ ids ∧ pr.2 ∈ ids := by
  induction ids with
  | nil => cases h
  | cons a rest ih =>
    have hs2 : List.Sorted (· < ·) rest := hs.of_cons
    have hlt : ∀ b ∈ rest, a < b := (List.sorted_cons.mp hs).1
    rw [show generatePiecePairs (a :: rest)
        = ((a :: rest).filterMap (fun b => if a = b then none else some (a, b)))
          ++ generatePiecePairs rest from rfl] at h
    rcases List.mem_append.mp h with h1 | h1
    · rcases List.mem_filterMap.mp h1 with ⟨b, hb, hbe⟩
      by_cases hab : a = b
      · rw [if_pos hab] at hbe
        cases hbe
      · rw [if_neg hab] at hbe
        have hpr : pr = (a, b) := by
          injection hbe with hbe2
          rw [hbe2]
        subst hpr
        have hbr : b ∈ rest := by
          rcases List.mem_cons.mp hb with h2 | h2
          · exact absurd h2.symm hab
          · exact h2
        exact ⟨hlt b hbr, by simp, by simp [hbr]⟩
    · rcases ih hs2 h1 with ⟨h2, h3, h4⟩
      exact ⟨h2, by simp [h3], by simp [h4]⟩

theorem generatePiecePairs_count {ids : List Nat} (hs : List.Sorted (· < ·) ids)
    {a b : Nat} (ha : a ∈ ids) (hb : b ∈ ids) (hab : a < b) :
    (generatePiecePairs ids).count (a, b) = 1 := by
  induction ids with
  | nil => cases ha
  | cons x rest ih =>
    have hs2 : List.Sorted (· < ·) rest := hs.of_cons
    have hlt : ∀ y ∈ rest, x < y := (List.sorted_cons.mp hs).1
    have hxni : x ∉ rest := fun hc => lt_irrefl x (hlt x hc)
    rw [show generatePiecePairs (x :: rest)
        = ((x :: rest).filterMap (fun y => if x = y then none else some (x, y)))
          ++ generatePiecePairs rest from rfl, List.count_append]
    have hblock : (x :: rest).filterMap (fun y => if x = y then none else some (x, y))
        = rest.map (fun y => (x, y)) := by
      rw [List.filterMap_cons, if_pos rfl]
      apply filterMap_eq_map_of_some
      intro y hy
      rw [if_neg (Nat.ne_of_lt (hlt y hy))]
    rw [hblock]
    by_cases hax : a = x
    · subst hax
      have hbr : b ∈ rest := by
        rcases List.mem_cons.mp hb with h2 | h2
        · exact absurd (h2 ▸ hab) (lt_irrefl a)
        · exact h2
      have hcount1 : (rest.map (fun y => (a, y))).count (a, b) = 1 := by
        have hgen : ∀ t : List Nat, (t.map (fun y => (a, y))).count (a, b) = t.count b := by
          intro t
          induction t with
          | nil => rfl
          | cons y s ihs => simp [List.count_cons, ihs]
        rw [hgen, List.count_eq_one_of_mem (hs2.nodup) hbr]
      have hcount2 : (generatePiecePairs rest).count (a, b) = 0 := by
        rw [List.count_eq_zero]
        intro hc
        exact hxni (generatePiecePairs_mem hs2 hc).2.1
      rw [hcount1, hcount2]
    · have har : a ∈ rest := by
        rcases List.mem_cons.mp ha with h2 | h2
        · exact absurd h2 hax
        · exact h2
      have hbr : b ∈ rest := by
        rcases List.mem_cons.mp hb with h2 | h2
        · exfalso
          rw [h2] at hab
          exact lt_asymm hab (hlt a har)
        · exact h2
      have hcount1 : (rest.map (fun y => (x, y))).count (a, b) = 0 := by
        rw [List.count_eq_zero]
        intro hc
        rcases List.mem_map.mp hc with ⟨y, _, hy⟩
        exact hax (congrArg Prod.fst hy).symm
      rw [hcount1, ih hs2 har hbr]

theorem generateNotePairs_le {notes : List NoteRow} {pieces : List PieceInfo}
    {rec : NotePairRow} (h : rec ∈ generateNotePairs notes pieces) :
    rec.note_a_id ≤ rec.note_b_id := by
  rw [generateNotePairs] at h
  rcases List.mem_flatMap.mp h with ⟨a, _, h2⟩
  rcases List.mem_filterMap.mp h2 with ⟨b, _, hbe⟩
  by_cases hle : a.note_id ≤ b.note_id
  · rw [if_pos hle] at hbe
    cases hfa : pieces.find? (fun p => decide (p.piece_id = a.piece_id)) with
    | none => rw [hfa] at hbe; cases hbe
    | some pa =>
      cases hfb : pieces.find? (fun p => decide (p.piece_id = b.piece_id)) with
      | none => rw [hfa, hfb] at hbe; cases hbe
      | some pb =>
        rw [hfa, hfb] at hbe
        injection hbe with hbe2
        rw [← hbe2]
        exact hle
  · rw [if_neg hle] at hbe
    cases hbe

/-- C8: both miners generate, from the sorted distinct piece-id list,
every unordered pair of distinct pieces exactly once with
`piece_a_id < piece_b_id` and never a self-pair, while the Note Pair
generator emits only pairs with `note_a_id ≤ note_b_id` and includes the
self-pair of every note whose piece exists. -/
theorem C8_pair_ordering_and_self_pairs :
    (∀ pieceIds : List Nat, List.Sorted (· < ·) pieceIds →
      (∀ pr ∈ generatePiecePairs pieceIds,
        pr.1 < pr.2 ∧ pr.1 ∈ pieceIds ∧ pr.2 ∈ pieceIds)
      ∧ (∀ a b : Nat, a ∈ pieceIds → b ∈ pieceIds → a < b →
          (generatePiecePairs pieceIds).count (a, b) = 1)
      ∧ (∀ p : Nat, (p, p) ∉ generatePiecePairs pieceIds))
    ∧ (∀ (notes : List NoteRow) (pieces : List PieceInfo),
      (∀ rec ∈ generateNotePairs notes pieces, rec.note_a_id ≤ rec.note_b_id)
      ∧ (∀ n ∈ notes, (∃ pc ∈ pieces, pc.piece_id = n.piece_id) →
          ∃ rec ∈ generateNotePairs notes pieces,
            rec.note_a_id = n.note_id ∧ rec.note_b_id = n.note_id)) := by
  constructor
  · intro pieceIds hs
    refine ⟨fun pr hpr => generatePiecePairs_mem hs hpr,
      fun a b ha hb hab => generatePiecePairs_count hs ha hb hab,
      fun p hp => ?_⟩
    exact lt_irrefl p (generatePiecePairs_mem hs hp).1
  · intro notes pieces
    refine ⟨fun rec hrec => generateNotePairs_le hrec, ?_⟩
    intro n hn hex
    rcases hex with ⟨pc, hpc, hpcid⟩
    have hfa : (pieces.find? (fun p => decide (p.piece_id = n.piece_id))).isSome :=
      List.find?_isSome.mpr ⟨pc, hpc, by simp [hpcid]⟩
    rcases Option.isSome_iff_exists.mp hfa with ⟨pa, hpa⟩
    refine ⟨{ note_a_id := n.note_id
              note_b_id := n.note_id
              composer_a := pa.composer
              composer_b := pa.composer
              same_composer := decide (pa.composer = pa.composer)
              piece_a_id := n.piece_id
              piece_b_id := n.piece_id
              same_piece := decide (n.piece_id = n.piece_id)
              voice_a := n.voice
              voice_b := n.voice
              same_voice := decide (n.voice = n.voice)
              onset_a := n.onset
              onset_b := n.onset }, ?_, rfl, rfl⟩
    rw [generateNotePairs]
    apply List.mem_flatMap.mpr
    refine ⟨n, hn, ?_⟩
    apply List.mem_filterMap.mpr
    refine ⟨n, hn, ?_⟩
    rw [if_pos (le_refl n.note_id), hpa]

/-- C8 witness: the ordering theorem applied to the concrete piece list
[1, 2] and the four-note corpus `c8Notes` over `c8Pieces`. -/
theorem C8_witness :
    (generatePiecePairs [1, 2]).count (1, 2) = 1
    ∧ ((1, 1) : Nat × Nat) ∉ generatePiecePairs [1, 2]
    ∧ (generateNotePairs c8Notes c8Pieces).all
        (fun rec => decide (rec.note_a_id ≤ rec.note_b_id)) = true
    ∧ (generateNotePairs c8Notes c8Pieces).any
        (fun rec => decide (rec.note_a_id = 1 ∧ rec.note_b_id = 1)) = true := by
  have h1 := (C8_pair_ordering_and_self_pairs.1 [1, 2] (by decide))
  have h2 := C8_pair_ordering_and_self_pairs.2 c8Notes c8Pieces
  refine ⟨h1.2.1 1 2 (by decide) (by decide) (by decide), h1.2.2 1, ?_, ?_⟩
  · apply List.all_eq_true.mpr
    intro rec hrec
    simpa using h2.1 rec hrec
  · rcases h2.2 ⟨1, 1, 1, 0⟩ (by decide) ⟨⟨1, "J"⟩, by decide, rfl⟩ with ⟨rec, hmem, hra, hrb⟩
    exact List.any_eq_true.mpr ⟨rec, hmem, by simp [hra, hrb]⟩

/-! ### Claim C9 — reconciler frame and convergence -/

theorem unmatchedCount_updateAllAtOnce_le (notes : List NoteRow) (ε : Int)
    (rows : List AnalysisRow) :
    unmatchedCount (updateAllAtOnce notes ε rows) ≤ unmatchedCount rows := by
  induction rows with
  | nil => exact le_refl _
  | cons r t ih =>
    rw [show updateAllAtOnce notes ε (r :: t)
        = (if r.note_id.isSome then r
            else
              match batchMatchNoteId notes r.piece_id r.voice r.onset ε with
              | some nid => { r with note_id := some nid }
              | none => r) :: updateAllAtOnce notes ε t from rfl]
    by_cases hs : r.note_id.isSome
    · rw [if_pos hs]
      unfold unmatchedCount
      rw [List.filter_cons, List.filter_cons]
      by_cases hn : r.note_id = none
      · rw [hn] at hs
        cases hs
      · rw [show (decide (r.note_id = none)) = false from by simp [hn]]
        simp only [Bool.false_eq_true, if_false]
        exact ih
    · rw [if_neg hs]
      have hn : r.note_id = none := Option.not_isSome_iff_eq_none.mp hs
      cases hbm : batchMatchNoteId notes r.piece_id r.voice r.onset ε with
      | none =>
        unfold unmatchedCount
        rw [List.filter_cons, List.filter_cons]
        rw [show (decide (r.note_id = none)) = true from by simp [hn]]
        simp only [if_true]
        simpa [unmatchedCount] using Nat.succ_le_succ (by simpa [unmatchedCount] using ih)
      | some nid =>
        unfold unmatchedCount
        rw [List.filter_cons, List.filter_cons]
        rw [show (decide (r.note_id = none)) = true from by simp [hn]]
        simp only [if_true]
        have hnew : ({ r with note_id := some nid } : AnalysisRow).note_id = none → False := by
          intro hc
          cases hc
        simp only [show (decide (({ r with note_id := some nid } : AnalysisRow).note_id = none))
            = false from by simp, Bool.false_eq_true, if_false]
        calc (List.filter (fun r => decide (r.note_id = none))
                (updateAllAtOnce notes ε t)).length
            ≤ (List.filter (fun r => decide (r.note_id = none)) t).length := ih
          _ ≤ (List.filter (fun r => decide (r.note_id = none)) t).length + 1 :=
              Nat.le_succ _

/-- C9: a reconciliation run (a) keeps the table length, (b) never alters
a row whose note reference is already non-NULL and changes only the
`note_id` field of the rows it does touch, and (c) across arbitrarily many
repeated runs the count of unmatched (NULL-reference) rows never
increases. -/
theorem C9_frame_and_convergence :
    ∀ (notes : List NoteRow) (ε : Int) (rows : List AnalysisRow),
      ((updateAllAtOnce notes ε rows).length = rows.length)
      ∧ (∀ i (h : i < rows.length) (h2 : i < (updateAllAtOnce notes ε rows).length),
          ((rows.get ⟨i, h⟩).note_id.isSome →
            (updateAllAtOnce notes ε rows).get ⟨i, h2⟩ = rows.get ⟨i, h⟩)
          ∧ ((updateAllAtOnce notes ε rows).get ⟨i, h2⟩).row_id = (rows.get ⟨i, h⟩).row_id
          ∧ ((updateAllAtOnce notes ε rows).get ⟨i, h2⟩).piece_id = (rows.get ⟨i, h⟩).piece_id
          ∧ ((updateAllAtOnce notes ε rows).get ⟨i, h2⟩).voice = (rows.get ⟨i, h⟩).voice
          ∧ ((updateAllAtOnce notes ε rows).get ⟨i, h2⟩).onset = (rows.get ⟨i, h⟩).onset)
      ∧ (∀ k : Nat, unmatchedCount ((updateAllAtOnce notes ε)^[k + 1] rows)
          ≤ unmatchedCount ((updateAllAtOnce notes ε)^[k] rows)) := by
  intro notes ε rows
  refine ⟨List.length_map _ _, ?_, ?_⟩
  · intro i h h2
    have hget : (updateAllAtOnce notes ε rows).get ⟨i, h2⟩
        = (fun r : AnalysisRow =>
            if r.note_id.isSome then r
            else
              match batchMatchNoteId notes r.piece_id r.voice r.onset ε with
              | some nid => { r with note_id := some nid }
              | none => r) (rows.get ⟨i, h⟩) := by
      show (rows.map (fun r : AnalysisRow =>
          if r.note_id.isSome then r
          else
            match batchMatchNoteId notes r.piece_id r.voice r.onset ε with
            | some nid => { r with note_id := some nid }
            | none => r))[i] = _
      rw [List.getElem_map]
      rfl
    rw [hget]
    set r := rows.get ⟨i, h⟩ with hr
    by_cases hs : r.note_id.isSome
    · simp only [if_pos hs]
      exact ⟨fun _ => trivial, by trivial, by trivial, by trivial, by trivial⟩
    · simp only [if_neg hs]
      cases hbm : batchMatchNoteId notes r.piece_id r.voice r.onset ε with
      | none => exact ⟨fun hc => absurd hc hs, by trivial, by trivial, by trivial, by trivial⟩
      | some nid => exact ⟨fun hc => absurd hc hs, by trivial, by trivial, by trivial, by trivial⟩
  · intro k
    rw [Function.iterate_succ_apply']
    exact unmatchedCount_updateAllAtOnce_le notes ε _

/-- C9 witness: the frame theorem applied to `c9Notes`, tolerance 10 and
the three-row table `c9Rows` (the second row is already matched). -/
theorem C9_witness :
    (updateAllAtOnce c9Notes 10 c9Rows).length = c9Rows.length
    ∧ (updateAllAtOnce c9Notes 10 c9Rows).get ⟨1, by decide⟩ = c9Rows.get ⟨1, by decide⟩
    ∧ unmatchedCount ((updateAllAtOnce c9Notes 10)^[1] c9Rows)
        ≤ unmatchedCount ((updateAllAtOnce c9Notes 10)^[0] c9Rows) := by
  have h := C9_frame_and_convergence c9Notes 10 c9Rows
  exact ⟨h.1, (h.2.1 1 (by decide) (by decide)).1 (by decide), h.2.2 0⟩

/-! ### Claim C10 — deduplicated lists, raw counts -/

/-- Unpacking one record of the collapsed miner. -/
theorem mem_findSharedValues {rows : List NgramRow} {piecePairs : List (Nat × Nat)}
    {piecesInfo : List PieceInfo} {rec : PairRec}
    (h : rec ∈ findSharedValues rows piecePairs piecesInfo) :
    ∃ pr ∈ piecePairs, ∃ v,
      rec.notes_in_a = natSorted (lookupGroup (ngramsOfPiece rows pr.1) v)
      ∧ rec.notes_in_b = natSorted (lookupGroup (ngramsOfPiece rows pr.2) v)
      ∧ rec.count_in_a = (lookupGroup (ngramsOfPiece rows pr.1) v).length
      ∧ rec.count_in_b = (lookupGroup (ngramsOfPiece rows pr.2) v).length := by
  rw [findSharedValues] at h
  rcases List.mem_flatMap.mp h with ⟨pr, hpr, h2⟩
  rcases List.mem_map.mp h2 with ⟨v, _, hrec⟩
  refine ⟨pr, hpr, v, ?_⟩
  rw [← hrec]
  exact ⟨rfl, rfl, rfl, rfl⟩

/-- C10: every configuration-aware Shared Pattern Source record stores
note-id lists that are sorted and duplicate-free while its counts are the
raw occurrence counts (so `count ≥ list length`, strictly on `c10Rows`)
and `pairs_count` multiplies the raw counts; the collapsed miner instead
stores sorted lists *without* deduplication (list length = count). -/
theorem C10_dedup_lists_raw_counts :
    (∀ (rows : List NgramRow) (piecePairs : List (Nat × Nat))
        (piecesInfo : List PieceInfo) (setsInfo : List SetInfo),
      ∀ rec ∈ findSharedValuesBySets rows piecePairs piecesInfo setsInfo,
        rec.notes_in_a.Sorted (· ≤ ·) ∧ rec.notes_in_a.Nodup
        ∧ rec.notes_in_b.Sorted (· ≤ ·) ∧ rec.notes_in_b.Nodup
        ∧ rec.notes_in_a.length ≤ rec.count_in_a
        ∧ rec.notes_in_b.length ≤ rec.count_in_b
        ∧ rec.pairs_count = rec.count_in_a * rec.count_in_b)
    ∧ (∀ (rows : List NgramRow) (piecePairs : List (Nat × Nat))
        (piecesInfo : List PieceInfo),
      ∀ rec ∈ findSharedValues rows piecePairs piecesInfo,
        rec.notes_in_a.Sorted (· ≤ ·) ∧ rec.notes_in_a.length = rec.count_in_a
        ∧ rec.notes_in_b.Sorted (· ≤ ·) ∧ rec.notes_in_b.length = rec.count_in_b)
    ∧ ((findSharedValuesBySets c10Rows (generatePiecePairs [3, 7]) c10Pieces c10Sets).map
        (fun rec => (rec.count_in_a, rec.notes_in_a.length, rec.count_in_b,
          rec.notes_in_b.length, rec.pairs_count))
        = [(2, 1, 1, 1, 2)]) := by
  refine ⟨?_, ?_, by decide⟩
  · intro rows piecePairs piecesInfo setsInfo rec hrec
    rcases mem_findSharedValuesBySets hrec with
      ⟨pr, _, sa, _, sb, _, v, _, _, _, _, _, hna, hnb, hca, hcb, hpc⟩
    refine ⟨?_, ?_, ?_, ?_, ?_, ?_, hpc⟩
    · rw [hna]; exact natSetSorted_sorted _
    · rw [hna]; exact natSetSorted_nodup _
    · rw [hnb]; exact natSetSorted_sorted _
    · rw [hnb]; exact natSetSorted_nodup _
    · rw [hna, hca]; exact natSetSorted_length_le _
    · rw [hnb, hcb]; exact natSetSorted_length_le _
  · intro rows piecePairs piecesInfo rec hrec
    rcases mem_findSharedValues hrec with ⟨pr, _, v, hna, hnb, hca, hcb⟩
    refine ⟨?_, ?_, ?_, ?_⟩
    · rw [hna]; exact natSorted_sorted _
    · rw [hna, hca]; exact natSorted_length _
    · rw [hnb]; exact natSorted_sorted _
    · rw [hnb, hcb]; exact natSorted_length _

/-- c10Rec: the single record the configuration-aware miner emits on
`c10Rows`. -/
theorem C10_witness :
    (findSharedValuesBySets c10Rows (generatePiecePairs [3, 7]) c10Pieces c10Sets).all
      (fun rec => decide (rec.notes_in_a.length ≤ rec.count_in_a
        ∧ rec.notes_in_b.length ≤ rec.count_in_b
        ∧ rec.pairs_count = rec.count_in_a * rec.count_in_b)) = true := by
  apply List.all_eq_true.mpr
  intro rec hrec
  have h := C10_dedup_lists_raw_counts.1 c10Rows (generatePiecePairs [3, 7])
    c10Pieces c10Sets rec hrec
  simpa using ⟨h.2.2.2.2.1, h.2.2.2.2.2.1, h.2.2.2.2.2.2⟩

/-! ### Claim C1 — nearest match vs first candidate -/

/-- The fold of `closerTo` returns the initial accumulator or a list
element, and the result is at least as close to `o` as the accumulator
and as every element of the list. -/
theorem foldl_closerTo_spec (o : Int) :
    ∀ (l : List NoteRow) (acc : Option NoteRow) (m : NoteRow),
      l.foldl (closerTo o) acc = some m →
      (acc = some m ∨ m ∈ l)
      ∧ (∀ b, acc = some b → |m.onset - o| ≤ |b.onset - o|)
      ∧ (∀ c ∈ l, |m.onset - o| ≤ |c.onset - o|) := by
  intro l
  induction l with
  | nil =>
    intro acc m h
    simp only [List.foldl_nil] at h
    refine ⟨Or.inl h, ?_, ?_⟩
    · intro b hb
      rw [h] at hb
      injection hb with hb
      rw [hb]
    · intro c hc
      exact absurd hc (List.not_mem_nil c)
  | cons n t ih =>
    intro acc m h
    rw [List.foldl_cons] at h
    cases acc with
    | none =>
      have hs : closerTo o none n = some n := rfl
      rw [hs] at h
      obtain ⟨hmem, haccmin, hlistmin⟩ := ih (some n) m h
      refine ⟨?_, ?_, ?_⟩
      · rcases hmem with he | hm
        · exact Or.inr (List.mem_cons.mpr (Or.inl (Option.some_inj.mp he).symm))
        · exact Or.inr (List.mem_cons_of_mem n hm)
      · intro b hb
        exact Option.noConfusion hb
      · intro c hc
        rcases List.mem_cons.mp hc with he | hm
        · rw [he]
          exact haccmin n rfl
        · exact hlistmin c hm
    | some b =>
      by_cases hlt : |n.onset - o| < |b.onset - o|
      · have hs : closerTo o (some b) n = some n := by
          simp [closerTo, hlt]
        rw [hs] at h
        obtain ⟨hmem, haccmin, hlistmin⟩ := ih (some n) m h
        refine ⟨?_, ?_, ?_⟩
        · rcases hmem with he | hm
          · exact Or.inr (List.mem_cons.mpr (Or.inl (Option.some_inj.mp he).symm))
          · exact Or.inr (List.mem_cons_of_mem n hm)
        · intro b1 hb1
          injection hb1 with hb1
          subst hb1
          exact le_trans (haccmin n rfl) (le_of_lt hlt)
        · intro c hc
          rcases List.mem_cons.mp hc with he | hm
          · rw [he]
            exact haccmin n rfl
          · exact hlistmin c hm
      · have hs : closerTo o (some b) n = some b := by
          simp [closerTo, hlt]
        rw [hs] at h
        obtain ⟨hmem, haccmin, hlistmin⟩ := ih (some b) m h
        refine ⟨?_, ?_, ?_⟩
        · rcases hmem with he | hm
          · exact Or.inl he
          · exact Or.inr (List.mem_cons_of_mem n hm)
        · intro b1 hb1
          injection hb1 with hb1
          subst hb1
          exact haccmin b rfl
        · intro c hc
          rcases List.mem_cons.mp hc with he | hm
          · rw [he]
            exact le_trans (haccmin b rfl) (not_lt.mp hlt)
          · exact hlistmin c hm

/-- `find_note_id` returns the id of a candidate whose absolute onset
difference is minimal over all candidates. -/
theorem findNoteId_nearest {notes : List NoteRow} {p v : Nat} {o ε : Int} {nid : Nat}
    (h : findNoteId notes p v o ε = some nid) :
    ∃ m ∈ candidatesWithin notes p v o ε, m.note_id = nid
      ∧ ∀ c ∈ candidatesWithin notes p v o ε, |m.onset - o| ≤ |c.onset - o| := by
  unfold findNoteId at h
  obtain ⟨m, hm, hid⟩ := Option.map_eq_some'.mp h
  obtain ⟨hmem, _, hmin⟩ := foldl_closerTo_spec o _ none m hm
  rcases hmem with he | hm1
  · exact Option.noConfusion he
  · exact ⟨m, hm1, hid, hmin⟩

/-- The candidate list is pairwise ordered by the (onset, note_id) index
order. -/
theorem pairwise_candidatesWithin (notes : List NoteRow) (p v : Nat) (o ε : Int) :
    (candidatesWithin notes p v o ε).Pairwise noteIdxLe := by
  unfold candidatesWithin
  exact List.Pairwise.filter _ (List.sorted_insertionSort noteIdxLe notes)

/-- The batch path returns the id of the candidate that is first in
index order — no comparison of absolute differences. -/
theorem batchMatch_first {notes : List NoteRow} {p v : Nat} {o ε : Int} {nid : Nat}
    (h : batchMatchNoteId notes p v o ε = some nid) :
    ∃ m ∈ candidatesWithin notes p v o ε, m.note_id = nid
      ∧ ∀ c ∈ candidatesWithin notes p v o ε, noteIdxLe m c := by
  unfold batchMatchNoteId at h
  obtain ⟨m, hm, hid⟩ := Option.map_eq_some'.mp h
  have hp := pairwise_candidatesWithin notes p v o ε
  cases hcand : candidatesWithin notes p v o ε with
  | nil =>
    rw [hcand] at hm
    exact Option.noConfusion hm
  | cons a t =>
    rw [hcand] at hm
    injection hm with hm
    subst hm
    rw [hcand] at hp
    refine ⟨a, ?_, hid, ?_⟩
    · exact List.mem_cons_self a t
    · intro c hc
      rcases List.mem_cons.mp hc with he | hm1
      · rw [he]
        exact Or.inr ⟨rfl, le_refl _⟩
      · exact (List.pairwise_cons.mp hp).1 c hm1

/-- C1 (corrected). The interactive `find_note_id` resolves to a
candidate of minimal absolute onset difference (a tie between equidistant
candidates goes to the one earliest in the `(onset, note_id)` index scan,
not necessarily the lower id); the batch `_update_all_at_once` path
instead assigns the candidate that is first in index order, irrespective
of its distance.  On the spec example (notes at onsets 0.0 and 1.0,
occurrence at 1.0004, ε = 0.001) both paths return id 11, because only
id 11 is within tolerance. -/
theorem C1_nearest_vs_first_candidate :
    (∀ (notes : List NoteRow) (p v : Nat) (o ε : Int) (nid : Nat),
      findNoteId notes p v o ε = some nid →
      ∃ m ∈ candidatesWithin notes p v o ε, m.note_id = nid
        ∧ ∀ c ∈ candidatesWithin notes p v o ε, |m.onset - o| ≤ |c.onset - o|)
    ∧ (∀ (notes : List NoteRow) (p v : Nat) (o ε : Int) (nid : Nat),
      batchMatchNoteId notes p v o ε = some nid →
      ∃ m ∈ candidatesWithin notes p v o ε, m.note_id = nid
        ∧ ∀ c ∈ candidatesWithin notes p v o ε, noteIdxLe m c)
    ∧ (findNoteId c1SpecNotes 1 1 10004 10 = some 11
      ∧ batchMatchNoteId c1SpecNotes 1 1 10004 10 = some 11) := by
  refine ⟨?_, ?_, ?_⟩
  · intro notes p v o ε nid h
    exact findNoteId_nearest h
  · intro notes p v o ε nid h
    exact batchMatch_first h
  · exact ⟨by decide, by decide⟩

/-- C1 witness: applying the nearest-candidate part at `c1Notes`, row
onset 0.0006, ε = 0.001: id 11 is returned and is a candidate of minimal
difference. -/
theorem C1_witness :
    ∃ m ∈ candidatesWithin c1Notes 1 1 6 10, m.note_id = 11
      ∧ ∀ c ∈ candidatesWithin c1Notes 1 1 6 10, |m.onset - 6| ≤ |c.onset - 6| :=
  C1_nearest_vs_first_candidate.1 c1Notes 1 1 6 10 11 (by decide)

/-- C1 counterexample to the original claim: with notes id 10 at onset
0.0000 and id 11 at onset 0.0008 and an unmatched row at onset 0.0006
(ε = 0.001), the batch run assigns id 10 even though id 11 is strictly
nearer (the interactive path picks 11); and on two equidistant candidates
id 21 (onset 0.0002) and id 20 (onset 0.0010) the interactive path
returns 21, the higher id. -/
theorem C1_counterexample :
    ((updateAllAtOnce c1Notes 10 [c1Row]).map (fun r => r.note_id) = [some 10]
      ∧ findNoteId c1Notes 1 1 6 10 = some 11
      ∧ |(8 - 6 : Int)| < |(0 - 6 : Int)|)
    ∧ (findNoteId c1TieNotes 1 1 6 10 = some 21
      ∧ |(2 - 6 : Int)| = |(10 - 6 : Int)| ∧ (20 : Nat) < 21) := by
  refine ⟨⟨?_, ?_, ?_⟩, ?_, ?_, ?_⟩ <;> decide

end Crim
